import Mathlib

/-!
Verification of the red-scare solver family (alternate / none / few / some / many).

The Python sources are shallowly embedded: vertex identifiers (strings in the
source) become `Nat`; an edge line "u -- v" / "u -> v" becomes an `Edge`
value; Python dictionaries of lists become functions `Nat → List Nat` built in
edge order; Python sets become `Finset Nat`; the worklist loops become
fuel-indexed or well-founded recursions whose step follows the source loop
body statement by statement.
-/

set_option maxHeartbeats 1000000
set_option linter.unusedVariables false

/-- An edge descriptor: `dir u v` models the line "u -> v", `undir u v`
models "u -- v". -/
inductive Edge where
  | dir (u v : Nat)
  | undir (u v : Nat)
deriving DecidableEq, Repr

/-- The out-neighbors that a single edge line contributes to the adjacency
list of `u` (source: `_build_adjacency_list`): an undirected edge appends
`v` to `adj[u]` and `u` to `adj[v]`; a directed edge appends only `v` to
`adj[u]`. -/
def edgeOut (u : Nat) : Edge → List Nat
  | .dir a b => if a = u then [b] else []
  | .undir a b => (if a = u then [b] else []) ++ (if b = u then [a] else [])

/-- Forward adjacency list built over the whole edge list, in edge order
(source: `_build_adjacency_list`; the same construction appears in
`solve_none`, `solve_few`, `alternate_solution` and
`build_graph_and_reverse`). `adjList edges u = []` corresponds to the key
`u` being absent from the Python dict. -/
def adjList (edges : List Edge) (u : Nat) : List Nat :=
  (edges.map (edgeOut u)).flatten

/-- Reverse adjacency: every edge flipped (undirected edges are symmetric). -/
def revEdge : Edge → Edge
  | .dir a b => .dir b a
  | .undir a b => .undir a b

/-- Reverse adjacency list (the spec's reverse AdjacencyIndex). -/
def revAdjList (edges : List Edge) (u : Nat) : List Nat :=
  adjList (edges.map revEdge) u

/-- All vertices occurring as an endpoint of some edge (the edge-derived
vertex set, with multiplicity; use `.toFinset` for the set). -/
def endpoints (edges : List Edge) : List Nat :=
  (edges.map fun e => match e with
    | .dir a b => [a, b]
    | .undir a b => [a, b]).flatten

/-- One step along the adjacency structure. -/
def AdjStep (adj : Nat → List Nat) (a b : Nat) : Prop := b ∈ adj a

/-- Reachability: the reflexive-transitive closure of `AdjStep`. -/
def ReachesVia (adj : Nat → List Nat) : Nat → Nat → Prop :=
  Relation.ReflTransGen (AdjStep adj)

/-- Fuel used by the breadth-first loops.  Each loop iteration pops one
queue entry, and every push is paired with marking an unvisited endpoint
visited, so `queue.length + 2 * |unvisited endpoints|` shrinks by at least
one per iteration; this fuel dominates that measure from any start state
with a one-element queue. -/
def bfsFuel (edges : List Edge) : Nat :=
  2 + 2 * (endpoints edges).length

/-- Inner neighbor scan of `_bfs_can_reach`: returns `none` when the
target was found among the neighbors (the Python `return True`), otherwise
the updated queue and visited set. -/
def reachScan (e : Nat) : List Nat → List Nat → Finset Nat →
    Option (List Nat × Finset Nat)
  | [], q, vis => some (q, vis)
  | n :: ns, q, vis =>
    if n = e then none
    else if n ∈ vis then reachScan e ns q vis
    else reachScan e ns (q ++ [n]) (insert n vis)

/-- The while-loop of `_bfs_can_reach` (fueled; the fuel is always
sufficient for the start states used below). -/
def reachLoop (adj : Nat → List Nat) (e : Nat) :
    Nat → List Nat → Finset Nat → Bool
  | 0, _, _ => false
  | _ + 1, [], _ => false
  | f + 1, u :: q, vis =>
    match reachScan e (adj u) q vis with
    | none => true
    | some (q', vis') => reachLoop adj e f q' vis'

/-- Source: `_bfs_can_reach(start_node, end_node, adj)`. -/
def bfs_can_reach (startNode endNode : Nat) (edges : List Edge) : Bool :=
  if startNode = endNode then true
  else if adjList edges startNode = [] then false
  else reachLoop (adjList edges) endNode (bfsFuel edges) [startNode] {startNode}

/-- The per-red-vertex loop of `solve_some`, with the early exit and the
second BFS only run when the first succeeded. -/
def someLoop (edges : List Edge) (s t : Nat) : List Nat → String
  | [] => "false"
  | r :: rs =>
    if bfs_can_reach s r edges then
      if bfs_can_reach r t edges then "true" else someLoop edges s t rs
    else someLoop edges s t rs

/-- Source: `solve_some(n, edges, s, t, red_vertices)`.  The red set is
iterated in some definite order (sorted); the result is proved independent
of that order. -/
def solve_some (n : Nat) (edges : List Edge) (s t : Nat)
    (red_vertices : Finset Nat) : String :=
  someLoop edges s t (red_vertices.sort (· ≤ ·))

/-- The set of vertices reachable from `s` in the forward graph (spec:
`ReachableFromS`). -/
def ReachableFrom (edges : List Edge) (s : Nat) : Set Nat :=
  {v | ReachesVia (adjList edges) s v}

/-- The set of vertices that can reach `t`, computed as reachability from
`t` over the reverse graph (spec: `CanReachT`). -/
def CanReach (edges : List Edge) (t : Nat) : Set Nat :=
  {v | ReachesVia (revAdjList edges) t v}

/-- Measure for the breadth-first loops: strictly decreases each iteration. -/
def reachMeasure (univ : Finset Nat) (q : List Nat) (vis : Finset Nat) : Nat :=
  q.length + 2 * (univ \ vis).card

/-- Invariant of `reachLoop` for a search that started at `s0` and looks
for `e`. -/
def ReachInv (adj : Nat → List Nat) (s0 e : Nat) (q : List Nat)
    (vis : Finset Nat) : Prop :=
  s0 ∈ vis ∧ (∀ v ∈ q, v ∈ vis) ∧ q.Nodup ∧
  (∀ v ∈ vis, ReachesVia adj s0 v) ∧
  (∀ v ∈ vis, v ∉ q → ∀ w ∈ adj v, w ∈ vis) ∧ e ∉ vis

/-- `list(nodes)` of `build_graph_and_reverse`: the distinct edge
endpoints, in some definite order (first occurrence). -/
def nodesList (edges : List Edge) : List Nat :=
  (endpoints edges).dedup

/-- Source: the `is_purely_undirected` flag of `build_graph_and_reverse`
(set to `False` as soon as a directed edge is seen). -/
def isPurelyUndirected (edges : List Edge) : Bool :=
  edges.all fun e => match e with
    | .undir _ _ => true
    | .dir _ _ => false

/-- Initial in-degree of `v` (source: the in-degree computation of
`get_topological_order_and_check_dag`): the number of adjacency-list
entries equal to `v`, summed over all nodes.  Kept as `Int` because the
running in-degrees are decremented below zero by the loop. -/
def indeg0 (edges : List Edge) (v : Nat) : Int :=
  (((nodesList edges).map fun u => ((adjList edges u).count v : Int))).sum

/-- Inner loop of Kahn's algorithm: decrement the in-degree of every
forward neighbor and enqueue those that hit zero. -/
def kahnRelax : List Nat → List Nat → (Nat → Int) → List Nat × (Nat → Int)
  | [], q, ind => (q, ind)
  | v :: vs, q, ind =>
    let d := ind v - 1
    let ind' := fun x => if x = v then d else ind x
    if d = 0 then kahnRelax vs (q ++ [v]) ind'
    else kahnRelax vs q ind'

/-- The while-loop of Kahn's algorithm (fueled; the fuel is sufficient,
see the measure argument in the sufficiency lemma). -/
def kahnLoop (adj : Nat → List Nat) :
    Nat → List Nat → List Nat → (Nat → Int) → List Nat
  | 0, _, order, _ => order
  | _ + 1, [], order, _ => order
  | f + 1, u :: q, order, ind =>
    let p := kahnRelax (adj u) q ind
    kahnLoop adj f p.1 (order ++ [u]) p.2

/-- The positive part of the running in-degrees, summed over the nodes. -/
def kahnWeight (edges : List Edge) (ind : Nat → Int) : Nat :=
  (((nodesList edges).map fun v => (ind v).toNat)).sum

/-- Fuel for `kahnLoop`: each iteration pops one entry, and each push is
paired with an in-degree decrement from 1 to 0, so
`queue.length + kahnWeight` shrinks every iteration; this fuel dominates
that measure at the start state. -/
def kahnFuel (edges : List Edge) : Nat :=
  1 + (nodesList edges).length + kahnWeight edges (indeg0 edges)

/-- Source: `get_topological_order_and_check_dag(adj, nodes)`.  Returns
the (partial) topological order and the `is_dag` flag
`len(topological_order) == len(nodes)`. -/
def get_topological_order_and_check_dag (edges : List Edge) :
    List Nat × Bool :=
  let nodes := nodesList edges
  let order := kahnLoop (adjList edges) (kahnFuel edges)
    (nodes.filter fun u => indeg0 edges u == 0) [] (indeg0 edges)
  (order, order.length == nodes.length)

/-- The DP dictionary after `dp = {node: -1 for node in nodes}` followed by
`dp[s] = 1 if s in R else 0`. -/
def dpInit (s : Nat) (R : Finset Nat) : Nat → Int :=
  fun v => if v = s then (if s ∈ R then 1 else 0) else -1

/-- Inner relaxation of `solve_many_dag`:
`dp[v] = max(dp[v], dp[u] + (1 if v in R else 0))` over the neighbors of
`u`, reading the current `dp[u]` at each step like the source does. -/
def dagRelax (R : Finset Nat) (u : Nat) : List Nat → (Nat → Int) → (Nat → Int)
  | [], dp => dp
  | v :: vs, dp =>
    dagRelax R u vs
      (fun x => if x = v then max (dp v) (dp u + (if v ∈ R then 1 else 0))
       else dp x)

/-- Outer loop of `solve_many_dag` over the topological order, guarded by
`if dp[u] != -1`. -/
def dagOuter (adj : Nat → List Nat) (R : Finset Nat) :
    List Nat → (Nat → Int) → (Nat → Int)
  | [], dp => dp
  | u :: us, dp =>
    dagOuter adj R us (if dp u ≠ -1 then dagRelax R u (adj u) dp else dp)

/-- Source: `solve_many_dag(adj, nodes, s, t, R, topological_order)`. -/
def solve_many_dag (edges : List Edge) (s t : Nat) (R : Finset Nat)
    (topo : List Nat) : Int :=
  if s ∈ nodesList edges then
    (if t ∈ nodesList edges then dagOuter (adjList edges) R topo (dpInit s R) t
     else -1)
  else -1

/-- Neighbor scan of `solve_many_undirected_acyclic`: set-and-push a
neighbor whose cost is still -1, then return `new_cost` if the neighbor is
the target (`Sum.inl` models the early `return`). -/
def treeScan (R : Finset Nat) (t u : Nat) :
    List Nat → List Nat → (Nat → Int) → Sum Int (List Nat × (Nat → Int))
  | [], q, cost => Sum.inr (q, cost)
  | v :: vs, q, cost =>
    let newCost := cost u + (if v ∈ R then 1 else 0)
    let p := if cost v = -1
      then (q ++ [v], fun x => if x = v then newCost else cost x)
      else (q, cost)
    if v = t then Sum.inl newCost
    else treeScan R t u vs p.1 p.2

/-- The while-loop of `solve_many_undirected_acyclic` (fueled). -/
def treeLoop (adj : Nat → List Nat) (R : Finset Nat) (t : Nat) :
    Nat → List Nat → (Nat → Int) → Int
  | 0, _, cost => cost t
  | _ + 1, [], cost => cost t
  | f + 1, u :: q, cost =>
    match treeScan R t u (adj u) q cost with
    | .inl r => r
    | .inr p => treeLoop adj R t f p.1 p.2

/-- Fuel for `treeLoop`: pushes are paired with a cost cell moving off -1,
so `queue.length + 2 * |nodes|` dominates the iteration count. -/
def treeFuel (edges : List Edge) : Nat :=
  2 + 2 * (nodesList edges).length

/-- Source: `solve_many_undirected_acyclic(adj, nodes, s, t, R)`. -/
def solve_many_undirected_acyclic (edges : List Edge) (s t : Nat)
    (R : Finset Nat) : Int :=
  if s ∉ nodesList edges ∨ t ∉ nodesList edges then -1
  else treeLoop (adjList edges) R t (treeFuel edges) [s] (dpInit s R)

/-- Result type of the Many solver: an integer, or the string sentinel
`"NP-HARD"` of the source. -/
inductive ManyResult where
  | val (r : Int)
  | npHard
deriving DecidableEq, Repr

/-- Source: `solve_many_entry(n, E_count, s, t, red_vertices, edge_list)`. -/
def solve_many_entry (n E_count : Nat) (s t : Nat)
    (red_vertices : List Nat) (edges : List Edge) : ManyResult :=
  let R := red_vertices.toFinset
  let tp := get_topological_order_and_check_dag edges
  if tp.2 then ManyResult.val (solve_many_dag edges s t R tp.1)
  else if isPurelyUndirected edges && ((nodesList edges).length == E_count + 1)
    then ManyResult.val (solve_many_undirected_acyclic edges s t R)
  else ManyResult.npHard

/-- A step along a directed edge of the instance (an `Edge.dir` member of
the edge list). -/
def DirStep (edges : List Edge) (a b : Nat) : Prop :=
  Edge.dir a b ∈ edges

/-- Invariant of `kahnLoop`: queue and order hold distinct nodes, the
running in-degrees are the initial ones minus the contributions of the
emitted order, every emitted or queued vertex has non-positive running
in-degree, and every in-neighbor of an emitted or queued vertex has
already been emitted (before it, for emitted vertices). -/
def KInv (edges : List Edge) (q order : List Nat) (ind : Nat → Int) : Prop :=
  (∀ v ∈ q, v ∈ nodesList edges) ∧
  (∀ v ∈ order, v ∈ nodesList edges) ∧
  (order ++ q).Nodup ∧
  (∀ v, ind v =
    indeg0 edges v - ((order.map fun u => ((adjList edges u).count v : Int)).sum)) ∧
  (∀ v ∈ order ++ q, ind v ≤ 0) ∧
  (∀ v ∈ order ++ q, ∀ u, v ∈ adjList edges u → u ∈ order) ∧
  (∀ v ∈ order, ∀ u, v ∈ adjList edges u → order.indexOf u < order.indexOf v)

/-- A walk in the adjacency structure: a non-empty vertex sequence from
`s` to `t` whose consecutive pairs are adjacency steps. -/
def IsWalk (adj : Nat → List Nat) (s t : Nat) (p : List Nat) : Prop :=
  p.head? = some s ∧ p.getLast? = some t ∧ p.Chain' (fun a b => b ∈ adj a)

/-- A walk of the instance graph: all its vertices lie in the edge-derived
vertex set (this only constrains the trivial one-vertex walk, since any
vertex incident to a traversed edge is automatically an endpoint). -/
def NodeWalk (edges : List Edge) (s t : Nat) (p : List Nat) : Prop :=
  IsWalk (adjList edges) s t p ∧ ∀ x ∈ p, x ∈ nodesList edges

/-- The number of red vertices on a walk, counted with multiplicity. -/
def redCount (R : Finset Nat) (p : List Nat) : Nat :=
  p.countP fun v => decide (v ∈ R)

/-- Neighbor scan of `solve_none`: skip visited, return (`none`) when the
target is found, prune red internal vertices, otherwise push with
distance d+1. -/
def noneScan (red : Finset Nat) (t : Nat) (d : Nat) :
    List Nat → List (Nat × Nat) → Finset Nat →
    Option (List (Nat × Nat) × Finset Nat)
  | [], q, vis => some (q, vis)
  | n :: ns, q, vis =>
    if n ∈ vis then noneScan red t d ns q vis
    else if n = t then none
    else if n ∈ red then noneScan red t d ns q vis
    else noneScan red t d ns (q ++ [(n, d + 1)]) (insert n vis)

/-- The while-loop of `solve_none` (fueled; a `none` scan result models the
early `return dist + 1`). -/
def noneLoop (adj : Nat → List Nat) (red : Finset Nat) (t : Nat) :
    Nat → List (Nat × Nat) → Finset Nat → Int
  | 0, _, _ => -1
  | _ + 1, [], _ => -1
  | f + 1, (u, d) :: q, vis =>
    match noneScan red t d (adj u) q vis with
    | none => (d : Int) + 1
    | some p => noneLoop adj red t f p.1 p.2

/-- Source: `solve_none(n, edges, s, t, red_vertices)`. -/
def solve_none (n : Nat) (edges : List Edge) (s t : Nat)
    (red : Finset Nat) : Int :=
  if s = t then 0
  else noneLoop (adjList edges) red t (bfsFuel edges) [(s, 0)] {s}

/-- Neighbor scan of `alternate_solution`: skip visited; from a red
carried color only black neighbors are entered, from a black carried color
only red ones; a successful entry of the target returns (`none`). -/
def altScan (red : Finset Nat) (t : Nat) (c : Bool) :
    List Nat → List (Nat × Bool) → Finset Nat →
    Option (List (Nat × Bool) × Finset Nat)
  | [], q, vis => some (q, vis)
  | n :: ns, q, vis =>
    if n ∈ vis then altScan red t c ns q vis
    else if c then
      (if n ∈ red then altScan red t c ns q vis
       else if n = t then none
       else altScan red t c ns (q ++ [(n, false)]) (insert n vis))
    else
      (if n ∈ red then
        (if n = t then none
         else altScan red t c ns (q ++ [(n, true)]) (insert n vis))
       else altScan red t c ns q vis)

/-- The while-loop of `alternate_solution` (fueled). -/
def altLoop (adj : Nat → List Nat) (red : Finset Nat) (t : Nat) :
    Nat → List (Nat × Bool) → Finset Nat → Bool
  | 0, _, _ => false
  | _ + 1, [], _ => false
  | f + 1, (u, c) :: q, vis =>
    match altScan red t c (adj u) q vis with
    | none => true
    | some p => altLoop adj red t f p.1 p.2

/-- Source: `alternate_solution(n, edges, s, t, red_vertices)`. -/
def alternate_solution (n : Nat) (edges : List Edge) (s t : Nat)
    (red : Finset Nat) : Bool :=
  if red = ∅ then false
  else if s = t then false
  else altLoop (adjList edges) red t (bfsFuel edges)
    [(s, if s ∈ red then true else false)] {s}

/-- Modelled from the spec (reference form for the visited-set claim): the
same alternating search, but the visited set holds full
`(vertex, carried-color)` states; since every enqueued state carries the
vertex's actual fixed color, membership is tested at
`(n, actual color of n)`. -/
def altScanRef (red : Finset Nat) (t : Nat) (c : Bool) :
    List Nat → List (Nat × Bool) → Finset (Nat × Bool) →
    Option (List (Nat × Bool) × Finset (Nat × Bool))
  | [], q, vis => some (q, vis)
  | n :: ns, q, vis =>
    if (n, if n ∈ red then true else false) ∈ vis then altScanRef red t c ns q vis
    else if c then
      (if n ∈ red then altScanRef red t c ns q vis
       else if n = t then none
       else altScanRef red t c ns (q ++ [(n, false)]) (insert (n, false) vis))
    else
      (if n ∈ red then
        (if n = t then none
         else altScanRef red t c ns (q ++ [(n, true)]) (insert (n, true) vis))
       else altScanRef red t c ns q vis)

/-- Modelled from the spec: the while-loop of the per-state-visited
reference search. -/
def altLoopRef (adj : Nat → List Nat) (red : Finset Nat) (t : Nat) :
    Nat → List (Nat × Bool) → Finset (Nat × Bool) → Bool
  | 0, _, _ => false
  | _ + 1, [], _ => false
  | f + 1, (u, c) :: q, vis =>
    match altScanRef red t c (adj u) q vis with
    | none => true
    | some p => altLoopRef adj red t f p.1 p.2

/-- Modelled from the spec: the reference alternate solver whose visited
set is keyed on `(vertex, required-next-color)` states. -/
def alternateRef (n : Nat) (edges : List Edge) (s t : Nat)
    (red : Finset Nat) : Bool :=
  if red = ∅ then false
  else if s = t then false
  else altLoopRef (adjList edges) red t (bfsFuel edges)
    [(s, if s ∈ red then true else false)]
    {(s, if s ∈ red then true else false)}

/-- Order on heap entries `(cost, vertex)`: the lexicographic tuple order
used by the Python `heapq` module. -/
def heapLe (a b : Nat × Nat) : Prop :=
  a.1 < b.1 ∨ (a.1 = b.1 ∧ a.2 ≤ b.2)

instance heapLeDec (a b : Nat × Nat) : Decidable (heapLe a b) := by
  unfold heapLe
  infer_instance

/-- Ordered insertion into the sorted-list model of the binary heap: the
entry goes before the first entry it is `heapLe`-below, so the head is
always the minimum, as with `heapq`. -/
def insertHeap (x : Nat × Nat) : List (Nat × Nat) → List (Nat × Nat)
  | [] => [x]
  | y :: ys => if heapLe x y then x :: y :: ys else y :: insertHeap x ys

/-- Neighbor relaxation of `solve_few`: for each neighbor, a cost of 1 if
it is red else 0 is added, and on strict improvement over
`distances.get(neighbor, inf)` the entry is pushed and the distance
updated. -/
def fewRelax (red : Finset Nat) (c : Nat) :
    List Nat → List (Nat × Nat) → (Nat → Option Nat) →
    List (Nat × Nat) × (Nat → Option Nat)
  | [], h, dist => (h, dist)
  | nb :: ns, h, dist =>
    let nc := c + (if nb ∈ red then 1 else 0)
    match dist nb with
    | some dn =>
      if nc < dn then
        fewRelax red c ns (insertHeap (nc, nb) h)
          (fun x => if x = nb then some nc else dist x)
      else fewRelax red c ns h dist
    | none =>
      fewRelax red c ns (insertHeap (nc, nb) h)
        (fun x => if x = nb then some nc else dist x)

/-- Number of endpoint vertices without an assigned distance. -/
def unsetCount (verts : Finset Nat) (dist : Nat → Option Nat) : Nat :=
  (verts.filter fun v => dist v = none).card

/-- Sum of the assigned distances over the endpoint vertices. -/
def distSum (verts : Finset Nat) (dist : Nat → Option Nat) : Nat :=
  verts.sum fun v => (dist v).getD 0

/-- The while-loop of `solve_few` (Dijkstra).  Terminates by the
lexicographic measure (unset vertices, total assigned distance, heap
size): a push either assigns a previously unset endpoint or strictly
lowers an assigned distance, and a pop shortens the heap. -/
def dijkstraLoop (edges : List Edge) (red : Finset Nat) (t : Nat) :
    List (Nat × Nat) → (Nat → Option Nat) → Int
  | [], _ => -1
  | (c, v) :: rest, dist =>
    if v = t then (c : Int)
    else if (match dist v with
             | some d => decide (d < c)
             | none => false) = true then
      dijkstraLoop edges red t rest dist
    else
      dijkstraLoop edges red t (fewRelax red c (adjList edges v) rest dist).1
        (fewRelax red c (adjList edges v) rest dist).2
termination_by heap dist => (unsetCount (endpoints edges).toFinset dist,
  distSum (endpoints edges).toFinset dist, heap.length)
decreasing_by
  · exact Prod.Lex.right _ (Prod.Lex.right _ (Nat.lt_succ_self _))
  · have hmem : ∀ x ∈ adjList edges v, x ∈ (endpoints edges).toFinset := by
      intro x hx
      simp only [adjList, List.mem_flatten, List.mem_map] at hx
      obtain ⟨l, ⟨e, he, rfl⟩, hxl⟩ := hx
      simp only [List.mem_toFinset, endpoints, List.mem_flatten, List.mem_map]
      refine ⟨_, ⟨e, he, rfl⟩, ?_⟩
      cases e with
      | dir a b =>
        simp only [edgeOut] at hxl
        split at hxl <;> simp_all
      | undir a b =>
        simp only [edgeOut, List.mem_append] at hxl
        rcases hxl with hx2 | hx2 <;> (split at hx2 <;> simp_all)
    have key : ∀ (ns : List Nat), (∀ x ∈ ns, x ∈ (endpoints edges).toFinset) →
        ∀ (h : List (Nat × Nat)) (d : Nat → Option Nat),
        (fewRelax red c ns h d = (h, d)) ∨
        unsetCount (endpoints edges).toFinset (fewRelax red c ns h d).2 <
          unsetCount (endpoints edges).toFinset d ∨
        (unsetCount (endpoints edges).toFinset (fewRelax red c ns h d).2 =
          unsetCount (endpoints edges).toFinset d ∧
         distSum (endpoints edges).toFinset (fewRelax red c ns h d).2 <
          distSum (endpoints edges).toFinset d) := by
      intro ns
      induction ns with
      | nil => intro _ h d; exact Or.inl rfl
      | cons nb ns ih =>
        intro hns h d
        have hnbv : nb ∈ (endpoints edges).toFinset :=
          hns nb (List.mem_cons_self _ _)
        have hns2 : ∀ x ∈ ns, x ∈ (endpoints edges).toFinset :=
          fun x hx => hns x (List.mem_cons_of_mem _ hx)
        rcases hdn : d nb with _ | dn
        · simp only [fewRelax, hdn]
          have hone : unsetCount (endpoints edges).toFinset
              (fun x => if x = nb then some (c + (if nb ∈ red then 1 else 0))
               else d x) <
              unsetCount (endpoints edges).toFinset d := by
            have hset : ((endpoints edges).toFinset.filter fun w =>
                (fun x => if x = nb then some (c + (if nb ∈ red then 1 else 0))
                 else d x) w = none) =
                ((endpoints edges).toFinset.filter fun w => d w = none).erase nb := by
              ext x
              simp only [Finset.mem_filter, Finset.mem_erase]
              by_cases hx : x = nb
              · subst hx
                simp [hdn]
              · simp [hx]
            have hmemf : nb ∈ (endpoints edges).toFinset.filter
                fun w => d w = none := Finset.mem_filter.mpr ⟨hnbv, hdn⟩
            have hposf : 0 < ((endpoints edges).toFinset.filter
                fun w => d w = none).card := Finset.card_pos.mpr ⟨nb, hmemf⟩
            simp only [unsetCount, hset, Finset.card_erase_of_mem hmemf]
            omega
          rcases ih hns2 (insertHeap (c + (if nb ∈ red then 1 else 0), nb) h)
              (fun x => if x = nb then some (c + (if nb ∈ red then 1 else 0))
               else d x) with heq | hlt | ⟨heq2, _⟩
          · rw [heq]
            exact Or.inr (Or.inl hone)
          · exact Or.inr (Or.inl (lt_trans hlt hone))
          · rw [heq2] at *
            exact Or.inr (Or.inl hone)
        · simp only [fewRelax, hdn]
          by_cases himp : c + (if nb ∈ red then 1 else 0) < dn
          · rw [if_pos himp]
            have hcnt : unsetCount (endpoints edges).toFinset
                (fun x => if x = nb then some (c + (if nb ∈ red then 1 else 0))
                 else d x) =
                unsetCount (endpoints edges).toFinset d := by
              unfold unsetCount
              congr 1
              ext x
              simp only [Finset.mem_filter]
              by_cases hx : x = nb
              · subst hx
                simp [hdn]
              · simp [hx]
            have hsum : distSum (endpoints edges).toFinset
                (fun x => if x = nb then some (c + (if nb ∈ red then 1 else 0))
                 else d x) <
                distSum (endpoints edges).toFinset d := by
              unfold distSum
              refine Finset.sum_lt_sum ?_ ⟨nb, hnbv, ?_⟩
              · intro i _
                by_cases hi : i = nb
                · subst hi
                  simp [hdn]
                  omega
                · simp [hi]
              · simp [hdn]
                omega
            rcases ih hns2 (insertHeap (c + (if nb ∈ red then 1 else 0), nb) h)
                (fun x => if x = nb then some (c + (if nb ∈ red then 1 else 0))
                 else d x) with heq | hlt | ⟨heq2, hsum2⟩
            · rw [heq]
              exact Or.inr (Or.inr ⟨hcnt, hsum⟩)
            · rw [hcnt] at hlt
              exact Or.inr (Or.inl hlt)
            · rw [hcnt] at heq2
              exact Or.inr (Or.inr ⟨heq2, lt_trans hsum2 hsum⟩)
          · rw [if_neg himp]
            exact ih hns2 h d
    rcases key (adjList edges v) hmem rest dist with heq | hlt | ⟨heq2, hsum⟩
    · rw [heq]
      exact Prod.Lex.right _ (Prod.Lex.right _ (Nat.lt_succ_self _))
    · exact Prod.Lex.left _ _ hlt
    · rw [heq2]
      exact Prod.Lex.right _ (Prod.Lex.left _ _ hsum)

/-- Source: `solve_few(n, edges, s, t, red_vertices)`. -/
def solve_few (n : Nat) (edges : List Edge) (s t : Nat)
    (red : Finset Nat) : Int :=
  dijkstraLoop edges red t
    (insertHeap ((if s ∈ red then 1 else 0), s) [])
    (fun x => if x = s then some (if s ∈ red then 1 else 0) else none)

/-- Invariant of `dijkstraLoop` relative to a ghost set `S` of settled
vertices: the heap is sorted; every heap entry is walk-realizable and
dominated by its assigned distance; assigned distances are
walk-realizable; settled vertices have optimal distances, are fully
relaxed, and sit below every heap cost; unsettled assigned vertices keep
their entry in the heap; `t` is never settled; and the source keeps a
distance at most its own cost. -/
def DijkInv (edges : List Edge) (red : Finset Nat) (s t : Nat)
    (heap : List (Nat × Nat)) (dist : Nat → Option Nat)
    (S : Finset Nat) : Prop :=
  List.Pairwise heapLe heap ∧
  (∀ e ∈ heap, (∃ p, IsWalk (adjList edges) s e.2 p ∧ redCount red p = e.1) ∧
    ∃ d, dist e.2 = some d ∧ d ≤ e.1) ∧
  (∀ v c', dist v = some c' →
    ∃ p, IsWalk (adjList edges) s v p ∧ redCount red p = c') ∧
  (∀ v ∈ S, ∀ p, IsWalk (adjList edges) s v p →
    ∃ d, dist v = some d ∧ d ≤ redCount red p) ∧
  (∀ v ∈ S, ∀ x ∈ adjList edges v, ∃ dv dx, dist v = some dv ∧
    dist x = some dx ∧ dx ≤ dv + (if x ∈ red then 1 else 0)) ∧
  (∀ v, v ∉ S → ∀ c', dist v = some c' → (c', v) ∈ heap) ∧
  (∀ v ∈ S, ∀ e ∈ heap, ∃ dv, dist v = some dv ∧ dv ≤ e.1) ∧
  t ∉ S ∧
  (∃ ds, dist s = some ds ∧ ds ≤ (if s ∈ red then 1 else 0))

/-- A valid path for the None query: an s-to-t walk all of whose internal
vertices (strictly between the first and last position) are black. -/
def NonePath (edges : List Edge) (red : Finset Nat) (s t : Nat)
    (p : List Nat) : Prop :=
  IsWalk (adjList edges) s t p ∧ ∀ x ∈ (p.drop 1).dropLast, x ∉ red

/-- A walk from `s` whose vertices after the first are neither red nor the
target: exactly the prefixes the None BFS explores. -/
def PrefixPath (edges : List Edge) (red : Finset Nat) (s t v : Nat)
    (p : List Nat) : Prop :=
  IsWalk (adjList edges) s v p ∧ ∀ x ∈ p.drop 1, x ∉ red ∧ x ≠ t

/-- An s-to-t walk whose internal vertices are black and distinct from the
target (the first time `t` occurs is at the end). -/
def CleanPath (edges : List Edge) (red : Finset Nat) (s t : Nat)
    (p : List Nat) : Prop :=
  ∃ mid, p = s :: mid ++ [t] ∧ (∀ x ∈ mid, x ∉ red ∧ x ≠ t) ∧
    p.Chain' (fun a b => b ∈ adjList edges a)

/-- Invariant of `noneLoop` relative to the ghost discovery-level map
`lvl`. -/
def NInv (edges : List Edge) (red : Finset Nat) (s t : Nat)
    (q : List (Nat × Nat)) (vis : Finset Nat) (lvl : Nat → Option Nat) : Prop :=
  (s ∈ vis ∧ lvl s = some 0 ∧ t ∉ vis) ∧
  (∀ v ∈ vis, ∃ d, lvl v = some d) ∧
  (∀ v d, lvl v = some d → v ∈ vis ∧
    (∃ p, PrefixPath edges red s t v p ∧ p.length = d + 1) ∧
    (∀ p, PrefixPath edges red s t v p → d + 1 ≤ p.length)) ∧
  (∀ e ∈ q, e.1 ∈ vis ∧ lvl e.1 = some e.2) ∧
  List.Pairwise (fun x y : Nat × Nat => x.2 ≤ y.2) q ∧
  (∀ e ∈ q, ∀ h0 ∈ q.head?, e.2 ≤ h0.2 + 1) ∧
  (q.map Prod.fst).Nodup ∧
  (∀ v ∈ vis, (∀ d, (v, d) ∉ q) → ∀ x ∈ adjList edges v,
    (x ∈ vis ∨ x ∈ red) ∧ x ≠ t)

/-- The realizability invariant of the DAG DP: every assigned value is the
red count of an actual walk from `s`. -/
def DpRealizable (adj : Nat → List Nat) (R : Finset Nat) (s : Nat)
    (dp : Nat → Int) : Prop :=
  (∀ v, -1 ≤ dp v) ∧
  (∀ v, dp v ≠ -1 → ∃ p, IsWalk adj s v p ∧ (redCount R p : Int) = dp v)

/-- Measure of the None BFS: queue length plus twice the unvisited part of
the vertex universe; it strictly decreases at every loop iteration. -/
def nMeasure (univ : Finset Nat) (q : List (Nat × Nat))
    (vis : Finset Nat) : Nat :=
  q.length + 2 * (univ \ vis).card

-- ===== THEOREMS =====

theorem mem_adjList_iff {edges : List Edge} {u n : Nat} :
    n ∈ adjList edges u ↔ ∃ e ∈ edges, n ∈ edgeOut u e := by
  simp [adjList, List.mem_flatten]

theorem adjList_subset_endpoints {edges : List Edge} {u n : Nat}
    (h : n ∈ adjList edges u) : n ∈ endpoints edges := by
  rcases mem_adjList_iff.mp h with ⟨e, he, hn⟩
  simp only [endpoints, List.mem_flatten, List.mem_map]
  refine ⟨_, ⟨e, he, rfl⟩, ?_⟩
  cases e with
  | dir a b =>
    simp only [edgeOut] at hn
    split at hn <;> simp_all
  | undir a b =>
    simp only [edgeOut, List.mem_append] at hn
    rcases hn with hn | hn <;> (split at hn <;> simp_all)

theorem source_mem_endpoints {edges : List Edge} {u : Nat}
    (h : adjList edges u ≠ []) : u ∈ endpoints edges := by
  rcases List.exists_mem_of_ne_nil _ h with ⟨n, hn⟩
  rcases mem_adjList_iff.mp hn with ⟨e, he, hmem⟩
  simp only [endpoints, List.mem_flatten, List.mem_map]
  refine ⟨_, ⟨e, he, rfl⟩, ?_⟩
  cases e with
  | dir a b =>
    simp only [edgeOut] at hmem
    split at hmem <;> simp_all
  | undir a b =>
    simp only [edgeOut, List.mem_append] at hmem
    rcases hmem with hm | hm <;> (split at hm <;> simp_all)

theorem reachScan_none_iff {e : Nat} {ns q : List Nat} {vis : Finset Nat} :
    reachScan e ns q vis = none ↔ e ∈ ns := by
  induction ns generalizing q vis with
  | nil => simp [reachScan]
  | cons n ns ih =>
    by_cases hne : n = e
    · subst hne; simp [reachScan]
    · simp only [reachScan, if_neg hne]
      by_cases hv : n ∈ vis
      · simp [hv, ih, List.mem_cons, Ne.symm hne, hne]
      · simp [hv, ih, List.mem_cons, Ne.symm hne, hne]

theorem reachScan_some {e : Nat} {ns q : List Nat} {vis : Finset Nat}
    {q' : List Nat} {vis' : Finset Nat}
    (h : reachScan e ns q vis = some (q', vis')) :
    (∀ v ∈ vis, v ∈ vis') ∧ (∀ n ∈ ns, n ∈ vis') ∧
    (∀ v ∈ vis', v ∈ vis ∨ v ∈ ns) ∧
    (∀ v ∈ q', v ∈ q ∨ v ∈ vis') ∧
    (∀ v ∈ q, v ∈ q') ∧
    (∀ v ∈ vis', v ∉ vis → v ∈ q') ∧
    ((∀ v ∈ q, v ∈ vis) → q.Nodup → q'.Nodup) := by
  induction ns generalizing q vis with
  | nil =>
    simp only [reachScan, Option.some.injEq, Prod.mk.injEq] at h
    obtain ⟨rfl, rfl⟩ := h
    refine ⟨fun v hv => hv, by simp, fun v hv => Or.inl hv,
      fun v hv => Or.inl hv, fun v hv => hv, fun v hv hnv => absurd hv hnv,
      fun _ hn => hn⟩
  | cons n ns ih =>
    simp only [reachScan] at h
    split at h
    · exact absurd h (by simp)
    · split at h
      · rename_i hne hv
        obtain ⟨h1, h2, h3, h4, h5, h6, h7⟩ := ih h
        refine ⟨h1, ?_, ?_, h4, h5, h6, h7⟩
        · intro m hm
          rcases List.mem_cons.mp hm with rfl | hm
          · exact h1 _ hv
          · exact h2 _ hm
        · intro v hv'
          rcases h3 v hv' with hv2 | hv2
          · exact Or.inl hv2
          · exact Or.inr (List.mem_cons_of_mem _ hv2)
      · rename_i hne hv
        obtain ⟨h1, h2, h3, h4, h5, h6, h7⟩ := ih h
        refine ⟨?_, ?_, ?_, ?_, ?_, ?_, ?_⟩
        · intro v hv'
          exact h1 _ (Finset.mem_insert_of_mem hv')
        · intro m hm
          rcases List.mem_cons.mp hm with rfl | hm
          · exact h1 _ (Finset.mem_insert_self _ _)
          · exact h2 _ hm
        · intro v hv'
          rcases h3 v hv' with hv2 | hv2
          · rcases Finset.mem_insert.mp hv2 with rfl | hv3
            · exact Or.inr (List.mem_cons_self _ _)
            · exact Or.inl hv3
          · exact Or.inr (List.mem_cons_of_mem _ hv2)
        · intro v hv'
          rcases h4 v hv' with hv2 | hv2
          · rcases List.mem_append.mp hv2 with hv3 | hv3
            · exact Or.inl hv3
            · simp only [List.mem_singleton] at hv3
              subst hv3
              exact Or.inr (h1 _ (Finset.mem_insert_self _ _))
          · exact Or.inr hv2
        · intro v hv'
          exact h5 _ (List.mem_append_left _ hv')
        · intro v hv' hnv
          by_cases hvn : v = n
          · subst hvn
            exact h5 _ (List.mem_append_right _ (by simp))
          · refine h6 v hv' ?_
            simp [hvn, hnv]
        · intro hq hnd
          refine h7 ?_ ?_
          · intro v hv'
            rcases List.mem_append.mp hv' with hv2 | hv2
            · exact Finset.mem_insert_of_mem (hq _ hv2)
            · simp only [List.mem_singleton] at hv2
              subst hv2
              exact Finset.mem_insert_self _ _
          · refine List.Nodup.append hnd (by simp) ?_
            intro a ha hb
            simp only [List.mem_singleton] at hb
            subst hb
            exact hv (hq _ ha)

theorem reachScan_measure {univ : Finset Nat} {e : Nat} {ns q : List Nat}
    {vis : Finset Nat} {q' : List Nat} {vis' : Finset Nat}
    (hns : ∀ n ∈ ns, n ∈ univ)
    (h : reachScan e ns q vis = some (q', vis')) :
    reachMeasure univ q' vis' ≤ reachMeasure univ q vis := by
  induction ns generalizing q vis with
  | nil =>
    simp only [reachScan, Option.some.injEq, Prod.mk.injEq] at h
    obtain ⟨rfl, rfl⟩ := h
    exact le_refl _
  | cons n ns ih =>
    simp only [reachScan] at h
    split at h
    · exact absurd h (by simp)
    · split at h
      · exact ih (fun m hm => hns m (List.mem_cons_of_mem _ hm)) h
      · rename_i hne hv
        refine le_trans (ih (fun m hm => hns m (List.mem_cons_of_mem _ hm)) h) ?_
        have hnu : n ∈ univ := hns n (List.mem_cons_self _ _)
        have hmem : n ∈ univ \ vis := Finset.mem_sdiff.mpr ⟨hnu, hv⟩
        have hcard : (univ \ insert n vis).card + 1 = (univ \ vis).card := by
          have : univ \ insert n vis = (univ \ vis).erase n := by
            ext x
            simp only [Finset.mem_sdiff, Finset.mem_insert, Finset.mem_erase]
            tauto
          have hpos : 0 < (univ \ vis).card := Finset.card_pos.mpr ⟨n, hmem⟩
          rw [this, Finset.card_erase_of_mem hmem]
          omega
        simp only [reachMeasure, List.length_append, List.length_singleton]
        omega

theorem reachInv_preserved {adj : Nat → List Nat} {s0 e u : Nat}
    {q : List Nat} {vis : Finset Nat} {q' : List Nat} {vis' : Finset Nat}
    (hinv : ReachInv adj s0 e (u :: q) vis)
    (h : reachScan e (adj u) q vis = some (q', vis')) :
    ReachInv adj s0 e q' vis' := by
  obtain ⟨hs0, hqv, hnd, hreach, hclosed, he⟩ := hinv
  obtain ⟨h1, h2, h3, h4, h5, h6, h7⟩ := reachScan_some h
  have hu : u ∈ vis := hqv u (List.mem_cons_self _ _)
  have hq'v : ∀ v ∈ q', v ∈ vis' := by
    intro v hv
    rcases h4 v hv with hv2 | hv2
    · exact h1 _ (hqv v (List.mem_cons_of_mem _ hv2))
    · exact hv2
  refine ⟨h1 _ hs0, hq'v, ?_, ?_, ?_, ?_⟩
  · exact h7 (fun v hv => hqv v (List.mem_cons_of_mem _ hv))
      (List.Nodup.of_cons hnd)
  · intro v hv
    rcases h3 v hv with hv2 | hv2
    · exact hreach v hv2
    · exact Relation.ReflTransGen.tail (hreach u hu) hv2
  · intro v hv hnq w hw
    rcases h3 v hv with hv2 | hv2
    · by_cases hvu : v = u
      · subst hvu
        exact h2 _ hw
      · by_cases hvq : v ∈ u :: q
        · rcases List.mem_cons.mp hvq with rfl | hvq2
          · exact absurd rfl hvu
          · exact absurd (h5 _ hvq2) hnq
        · exact h1 _ (hclosed v hv2 hvq w hw)
    · -- v is a freshly pushed neighbor of u: it is in q', contradiction
      by_cases hvis : v ∈ vis
      · by_cases hvq : v ∈ u :: q
        · rcases List.mem_cons.mp hvq with rfl | hvq2
          · exact h2 _ hw
          · exact absurd (h5 _ hvq2) hnq
        · exact h1 _ (hclosed v hvis hvq w hw)
      · exact absurd (h6 v hv hvis) hnq
  · intro hcon
    rcases h3 e hcon with hv2 | hv2
    · exact he hv2
    · have : reachScan e (adj u) q vis = none := reachScan_none_iff.mpr hv2
      rw [this] at h
      exact absurd h (by simp)

theorem reach_subset_closed {adj : Nat → List Nat} {s0 : Nat}
    {vis : Finset Nat} (hs0 : s0 ∈ vis)
    (hclosed : ∀ v ∈ vis, ∀ w ∈ adj v, w ∈ vis) :
    ∀ v, ReachesVia adj s0 v → v ∈ vis := by
  intro v hv
  induction hv with
  | refl => exact hs0
  | tail _ hstep ih => exact hclosed _ ih _ hstep

theorem reachLoop_sound {adj : Nat → List Nat} {s0 e : Nat} :
    ∀ {f : Nat} {q : List Nat} {vis : Finset Nat},
    ReachInv adj s0 e q vis → reachLoop adj e f q vis = true →
    ReachesVia adj s0 e := by
  intro f
  induction f with
  | zero => intro q vis _ h; simp [reachLoop] at h
  | succ f ih =>
    intro q vis hinv h
    match q with
    | [] => simp [reachLoop] at h
    | u :: q =>
      simp only [reachLoop] at h
      rcases hscan : reachScan e (adj u) q vis with _ | ⟨q', vis'⟩
      · have he : e ∈ adj u := reachScan_none_iff.mp hscan
        have hu : u ∈ vis := hinv.2.1 u (List.mem_cons_self _ _)
        exact Relation.ReflTransGen.tail (hinv.2.2.2.1 u hu) he
      · rw [hscan] at h
        exact ih (reachInv_preserved hinv hscan) h

theorem reachLoop_complete {edges : List Edge} {s0 e : Nat} :
    ∀ {f : Nat} {q : List Nat} {vis : Finset Nat},
    reachMeasure (endpoints edges).toFinset q vis < f →
    ReachInv (adjList edges) s0 e q vis →
    ReachesVia (adjList edges) s0 e →
    reachLoop (adjList edges) e f q vis = true := by
  intro f
  induction f with
  | zero => intro q vis hm _ _; omega
  | succ f ih =>
    intro q vis hm hinv hr
    match q with
    | [] =>
      exfalso
      have hclosed : ∀ v ∈ vis, ∀ w ∈ adjList edges v, w ∈ vis := by
        intro v hv w hw
        exact hinv.2.2.2.2.1 v hv (by simp) w hw
      exact hinv.2.2.2.2.2 (reach_subset_closed hinv.1 hclosed e hr)
    | u :: q =>
      simp only [reachLoop]
      rcases hscan : reachScan e (adjList edges u) q vis with _ | ⟨q', vis'⟩
      · rfl
      · have hmeas := reachScan_measure
          (fun n hn => List.mem_toFinset.mpr (adjList_subset_endpoints hn)) hscan
        have hlt : reachMeasure (endpoints edges).toFinset q' vis' < f := by
          simp only [reachMeasure, List.length_cons] at hm hmeas ⊢
          omega
        exact ih hlt (reachInv_preserved hinv hscan) hr

theorem bfs_can_reach_iff {edges : List Edge} {a b : Nat} :
    bfs_can_reach a b edges = true ↔ ReachesVia (adjList edges) a b := by
  unfold bfs_can_reach
  by_cases hab : a = b
  · subst hab
    simp only [if_pos rfl]
    exact ⟨fun _ => Relation.ReflTransGen.refl, fun _ => rfl⟩
  · simp only [if_neg hab]
    by_cases hnil : adjList edges a = []
    · simp only [if_pos hnil]
      constructor
      · intro h; simp at h
      · intro h
        rcases Relation.ReflTransGen.cases_head h with rfl | ⟨c, hc, _⟩
        · exact absurd rfl hab
        · have hc' : c ∈ adjList edges a := hc
          rw [hnil] at hc'
          exact absurd hc' (List.not_mem_nil _)
    · simp only [if_neg hnil]
      have hinv : ReachInv (adjList edges) a b [a] {a} := by
        refine ⟨Finset.mem_singleton_self a, by simp, by simp, ?_, ?_, ?_⟩
        · intro v hv
          rw [Finset.mem_singleton] at hv
          subst hv
          exact Relation.ReflTransGen.refl
        · intro v hv hnq
          rw [Finset.mem_singleton] at hv
          subst hv
          simp at hnq
        · simp [Ne.symm hab]
      constructor
      · intro h
        exact reachLoop_sound hinv h
      · intro h
        refine reachLoop_complete ?_ hinv h
        have hcard : ((endpoints edges).toFinset \ {a}).card ≤
            (endpoints edges).length := by
          refine le_trans (Finset.card_le_card (Finset.sdiff_subset)) ?_
          exact List.toFinset_card_le _
        simp only [reachMeasure, List.length_singleton, bfsFuel]
        omega

theorem someLoop_eq_true_iff {edges : List Edge} {s t : Nat} {l : List Nat} :
    someLoop edges s t l = "true" ↔
    ∃ r ∈ l, bfs_can_reach s r edges = true ∧ bfs_can_reach r t edges = true := by
  induction l with
  | nil => simp [someLoop]
  | cons r rs ih =>
    simp only [someLoop]
    by_cases h1 : bfs_can_reach s r edges = true
    · by_cases h2 : bfs_can_reach r t edges = true
      · simp [h1, h2]
      · simp only [if_pos h1, if_neg h2, ih]
        constructor
        · rintro ⟨r', hr', ha, hb⟩
          exact ⟨r', List.mem_cons_of_mem _ hr', ha, hb⟩
        · rintro ⟨r', hr', ha, hb⟩
          rcases List.mem_cons.mp hr' with rfl | hr2
          · exact absurd hb h2
          · exact ⟨r', hr2, ha, hb⟩
    · simp only [if_neg h1, ih]
      constructor
      · rintro ⟨r', hr', ha, hb⟩
        exact ⟨r', List.mem_cons_of_mem _ hr', ha, hb⟩
      · rintro ⟨r', hr', ha, hb⟩
        rcases List.mem_cons.mp hr' with rfl | hr2
        · exact absurd ha h1
        · exact ⟨r', hr2, ha, hb⟩

theorem mem_revAdjList_iff {edges : List Edge} {u n : Nat} :
    n ∈ revAdjList edges u ↔ u ∈ adjList edges n := by
  simp only [revAdjList, mem_adjList_iff, List.mem_map]
  constructor
  · rintro ⟨e', ⟨e, he, rfl⟩, hn⟩
    refine ⟨e, he, ?_⟩
    cases e with
    | dir a b =>
      simp only [revEdge, edgeOut] at hn ⊢
      split at hn <;> simp_all
    | undir a b =>
      simp only [revEdge, edgeOut, List.mem_append] at hn ⊢
      rcases hn with hn | hn <;> (split at hn <;> simp_all)
  · rintro ⟨e, he, hu⟩
    refine ⟨revEdge e, ⟨e, he, rfl⟩, ?_⟩
    cases e with
    | dir a b =>
      simp only [revEdge, edgeOut] at hu ⊢
      split at hu <;> simp_all
    | undir a b =>
      simp only [revEdge, edgeOut, List.mem_append] at hu ⊢
      rcases hu with hu | hu <;> (split at hu <;> simp_all)

theorem reachesVia_rev_iff {edges : List Edge} {a b : Nat} :
    ReachesVia (revAdjList edges) a b ↔ ReachesVia (adjList edges) b a := by
  have hrel : ∀ x y, AdjStep (revAdjList edges) x y ↔
      Function.swap (AdjStep (adjList edges)) x y := by
    intro x y
    exact mem_revAdjList_iff
  constructor
  · intro h
    refine Relation.reflTransGen_swap.mp ?_
    exact (Relation.ReflTransGen.mono (fun x y hxy => (hrel x y).mp hxy)) h
  · intro h
    have h2 : Relation.ReflTransGen (Function.swap (AdjStep (adjList edges))) a b :=
      Relation.reflTransGen_swap.mpr h
    exact (Relation.ReflTransGen.mono (fun x y hxy => (hrel x y).mpr hxy)) h2

theorem solve_some_iff {n : Nat} {edges : List Edge} {s t : Nat}
    {red : Finset Nat} :
    solve_some n edges s t red = "true" ↔
    ∃ r ∈ red, ReachesVia (adjList edges) s r ∧ ReachesVia (adjList edges) r t := by
  unfold solve_some
  rw [someLoop_eq_true_iff]
  constructor
  · rintro ⟨r, hr, ha, hb⟩
    exact ⟨r, (Finset.mem_sort _).mp hr, bfs_can_reach_iff.mp ha,
      bfs_can_reach_iff.mp hb⟩
  · rintro ⟨r, hr, ha, hb⟩
    exact ⟨r, (Finset.mem_sort _).mpr hr, bfs_can_reach_iff.mpr ha,
      bfs_can_reach_iff.mpr hb⟩

/-- C1: `solve_some` (per-red-vertex pair of forward BFS reachability checks
with early exit) returns `"true"` exactly when
`RedSet ∩ ReachableFromS ∩ CanReachT` is non-empty, where `ReachableFromS`
is forward reachability from `s` and `CanReachT` is reachability from `t`
over the reverse graph; so the implemented per-vertex form and the
set-intersection reference form agree on every instance. -/
theorem some_solver_eq_set_intersection (n : Nat) (edges : List Edge)
    (s t : Nat) (red : Finset Nat) :
    solve_some n edges s t red = "true" ↔
    ((red : Set Nat) ∩ ReachableFrom edges s ∩ CanReach edges t).Nonempty := by
  rw [solve_some_iff]
  constructor
  · rintro ⟨r, hr, ha, hb⟩
    exact ⟨r, ⟨⟨hr, ha⟩, reachesVia_rev_iff.mpr hb⟩⟩
  · rintro ⟨r, ⟨⟨hr, ha⟩, hb⟩⟩
    exact ⟨r, hr, ha, reachesVia_rev_iff.mp hb⟩

theorem target_mem_nodes {edges : List Edge} {u v : Nat}
    (h : v ∈ adjList edges u) : v ∈ nodesList edges :=
  List.mem_dedup.mpr (adjList_subset_endpoints h)

theorem source_mem_nodes {edges : List Edge} {u v : Nat}
    (h : v ∈ adjList edges u) : u ∈ nodesList edges :=
  List.mem_dedup.mpr (source_mem_endpoints (by intro hc; rw [hc] at h; simp at h))

theorem kahnRelax_ind {ns q : List Nat} {ind : Nat → Int} :
    ∀ x, (kahnRelax ns q ind).2 x = ind x - ((ns.count x : Nat) : Int) := by
  induction ns generalizing q ind with
  | nil => intro x; simp [kahnRelax]
  | cons v vs ih =>
    intro x
    simp only [kahnRelax]
    by_cases hd : ind v - 1 = 0
    · rw [if_pos hd, ih]
      by_cases hx : x = v
      · subst hx
        simp [List.count_cons, if_pos rfl]
        omega
      · simp [List.count_cons, hx, Ne.symm hx]
    · rw [if_neg hd, ih]
      by_cases hx : x = v
      · subst hx
        simp [List.count_cons]
        omega
      · simp [List.count_cons, hx, Ne.symm hx]

theorem kahnRelax_queue {ns q : List Nat} {ind : Nat → Int} :
    (∀ v ∈ q, v ∈ (kahnRelax ns q ind).1) ∧
    (∀ v ∈ (kahnRelax ns q ind).1, v ∈ q ∨ (v ∈ ns ∧ 0 < ind v)) := by
  induction ns generalizing q ind with
  | nil => exact ⟨fun v hv => hv, fun v hv => Or.inl hv⟩
  | cons n vs ih =>
    simp only [kahnRelax]
    by_cases hd : ind n - 1 = 0
    · rw [if_pos hd]
      obtain ⟨ih1, ih2⟩ := ih
      constructor
      · intro v hv
        exact ih1 v (List.mem_append_left _ hv)
      · intro v hv
        rcases ih2 v hv with hv2 | ⟨hv2, hv3⟩
        · rcases List.mem_append.mp hv2 with hv3 | hv3
          · exact Or.inl hv3
          · simp only [List.mem_singleton] at hv3
            subst hv3
            exact Or.inr ⟨List.mem_cons_self _ _, by omega⟩
        · by_cases hvn : v = n
          · subst hvn
            exact Or.inr ⟨List.mem_cons_self _ _, by omega⟩
          · simp only [if_neg hvn] at hv3
            exact Or.inr ⟨List.mem_cons_of_mem _ hv2, hv3⟩
    · rw [if_neg hd]
      obtain ⟨ih1, ih2⟩ := ih
      refine ⟨ih1, ?_⟩
      intro v hv
      rcases ih2 v hv with hv2 | ⟨hv2, hv3⟩
      · exact Or.inl hv2
      · by_cases hvn : v = n
        · subst hvn
          simp only [if_pos rfl] at hv3
          exact Or.inr ⟨List.mem_cons_self _ _, by omega⟩
        · simp only [if_neg hvn] at hv3
          exact Or.inr ⟨List.mem_cons_of_mem _ hv2, hv3⟩

theorem kahnRelax_nonpos {ns q : List Nat} {ind : Nat → Int}
    (hq : ∀ v ∈ q, ind v ≤ 0) :
    ∀ v ∈ (kahnRelax ns q ind).1, (kahnRelax ns q ind).2 v ≤ 0 := by
  induction ns generalizing q ind with
  | nil => intro v hv; exact hq v hv
  | cons n vs ih =>
    simp only [kahnRelax]
    by_cases hd : ind n - 1 = 0
    · rw [if_pos hd]
      refine ih ?_
      intro v hv
      rcases List.mem_append.mp hv with hv2 | hv2
      · by_cases hvn : v = n
        · subst hvn; simp; omega
        · simp only [if_neg hvn]
          exact hq v hv2
      · simp only [List.mem_singleton] at hv2
        subst hv2
        simp
        omega
    · rw [if_neg hd]
      refine ih ?_
      intro v hv
      by_cases hvn : v = n
      · subst hvn
        simp only [if_pos rfl]
        exact le_trans (by omega) (hq v hv)
      · simp only [if_neg hvn]
        exact hq v hv

theorem kahnRelax_nodup {ns q : List Nat} {ind : Nat → Int}
    (hq : ∀ v ∈ q, ind v ≤ 0) (hnd : q.Nodup) :
    (kahnRelax ns q ind).1.Nodup := by
  induction ns generalizing q ind with
  | nil => exact hnd
  | cons n vs ih =>
    simp only [kahnRelax]
    by_cases hd : ind n - 1 = 0
    · rw [if_pos hd]
      have hnq : n ∉ q := by
        intro hc
        have := hq n hc
        omega
      refine ih ?_ ?_
      · intro v hv
        rcases List.mem_append.mp hv with hv2 | hv2
        · by_cases hvn : v = n
          · subst hvn; exact absurd hv2 hnq
          · simp only [if_neg hvn]
            exact hq v hv2
        · simp only [List.mem_singleton] at hv2
          subst hv2
          simp
          omega
      · simp [List.nodup_append, hnd, hnq]
    · rw [if_neg hd]
      refine ih ?_ hnd
      intro v hv
      by_cases hvn : v = n
      · subst hvn
        simp only [if_pos rfl]
        exact le_trans (by omega) (hq v hv)
      · simp only [if_neg hvn]
        exact hq v hv

theorem kahnRelax_measure {edges : List Edge} {ns q : List Nat}
    {ind : Nat → Int} (hns : ∀ v ∈ ns, v ∈ nodesList edges) :
    (kahnRelax ns q ind).1.length + kahnWeight edges (kahnRelax ns q ind).2 ≤
    q.length + kahnWeight edges ind := by
  induction ns generalizing q ind with
  | nil => simp [kahnRelax]
  | cons n vs ih =>
    simp only [kahnRelax]
    by_cases hd : ind n - 1 = 0
    · rw [if_pos hd]
      refine le_trans (ih (fun v hv => hns v (List.mem_cons_of_mem _ hv))) ?_
      have hw : kahnWeight edges (fun x => if x = n then ind n - 1 else ind x) + 1 ≤
          kahnWeight edges ind := by
        have hlt : ((nodesList edges).map fun v =>
            ((fun x => if x = n then ind n - 1 else ind x) v).toNat).sum <
            (((nodesList edges).map fun v => (ind v).toNat)).sum := by
          refine List.sum_lt_sum _ _ ?_ ?_
          · intro v hv
            by_cases hvn : v = n
            · subst hvn
              simp only [if_pos rfl]
              omega
            · simp [hvn]
          · refine ⟨n, hns n (List.mem_cons_self _ _), ?_⟩
            simp only [if_true, eq_self_iff_true]
            omega
        simpa [kahnWeight] using hlt
      simp only [List.length_append, List.length_singleton]
      omega
    · rw [if_neg hd]
      refine le_trans (ih (fun v hv => hns v (List.mem_cons_of_mem _ hv))) ?_
      have hw : kahnWeight edges (fun x => if x = n then ind n - 1 else ind x) ≤
          kahnWeight edges ind := by
        refine List.sum_le_sum ?_
        intro v hv
        by_cases hvn : v = n
        · subst hvn
          simp only [if_pos rfl]
          omega
        · simp [hvn]
      omega

theorem inneighbors_mem_of_nonpos {edges : List Edge} {order1 : List Nat}
    (hsub : ∀ v ∈ order1, v ∈ nodesList edges) (hnd : order1.Nodup) {v : Nat}
    (hv : indeg0 edges v -
      ((order1.map fun u => ((adjList edges u).count v : Int)).sum) ≤ 0) :
    ∀ u, v ∈ adjList edges u → u ∈ order1 := by
  intro u hu
  by_contra hmem
  have hun : u ∈ nodesList edges := source_mem_nodes hu
  have hcount : (1 : Int) ≤ ((adjList edges u).count v : Int) := by
    have := List.count_pos_iff.mpr hu
    omega
  have hsum1 : (order1.map fun w => ((adjList edges w).count v : Int)).sum =
      order1.toFinset.sum fun w => ((adjList edges w).count v : Int) :=
    (List.sum_toFinset _ hnd).symm
  have hnodes : (nodesList edges).Nodup := List.nodup_dedup _
  have hsum2 : indeg0 edges v =
      (nodesList edges).toFinset.sum fun w => ((adjList edges w).count v : Int) :=
    (List.sum_toFinset _ hnodes).symm
  have hsubset : insert u order1.toFinset ⊆ (nodesList edges).toFinset := by
    intro x hx
    rcases Finset.mem_insert.mp hx with rfl | hx
    · exact List.mem_toFinset.mpr hun
    · exact List.mem_toFinset.mpr (hsub x (List.mem_toFinset.mp hx))
  have hub : (insert u order1.toFinset).sum
      (fun w => ((adjList edges w).count v : Int)) ≤
      (nodesList edges).toFinset.sum fun w => ((adjList edges w).count v : Int) := by
    refine Finset.sum_le_sum_of_subset_of_nonneg hsubset ?_
    intro x _ _
    positivity
  rw [Finset.sum_insert (by simpa using hmem)] at hub
  rw [hsum2] at hv
  rw [hsum1] at hv
  omega

theorem KInv_step {edges : List Edge} {u : Nat} {q order : List Nat}
    {ind : Nat → Int} (hinv : KInv edges (u :: q) order ind) :
    KInv edges (kahnRelax (adjList edges u) q ind).1 (order ++ [u])
      (kahnRelax (adjList edges u) q ind).2 := by
  obtain ⟨ka, kb, kc, kd, ke, kf, kg⟩ := hinv
  have hcparts := List.nodup_append.mp kc
  obtain ⟨hond, hcons, hdisj⟩ := hcparts
  have hunq : u ∉ q := (List.nodup_cons.mp hcons).1
  have hqnd : q.Nodup := (List.nodup_cons.mp hcons).2
  have huo : u ∉ order := fun hc => hdisj hc (List.mem_cons_self _ _)
  have hq0 : ∀ v ∈ q, ind v ≤ 0 := fun v hv =>
    ke v (List.mem_append_right _ (List.mem_cons_of_mem _ hv))
  have hqmem := @kahnRelax_queue (adjList edges u) q ind
  have hindeq := @kahnRelax_ind (adjList edges u) q ind
  have hnonpos := @kahnRelax_nonpos (adjList edges u) q ind hq0
  have kd' : ∀ v, (kahnRelax (adjList edges u) q ind).2 v =
      indeg0 edges v -
      (((order ++ [u]).map fun w => ((adjList edges w).count v : Int)).sum) := by
    intro v
    rw [hindeq v, kd v]
    simp only [List.map_append, List.sum_append, List.map_singleton,
      List.sum_singleton]
    omega
  have kb' : ∀ v ∈ order ++ [u], v ∈ nodesList edges := by
    intro v hv
    rcases List.mem_append.mp hv with hv2 | hv2
    · exact kb v hv2
    · simp only [List.mem_singleton] at hv2
      subst hv2
      exact ka _ (List.mem_cons_self _ _)
  have hord1nd : (order ++ [u]).Nodup := by
    rw [List.nodup_append]
    exact ⟨hond, List.nodup_singleton u, by
      intro a ha hb
      simp only [List.mem_singleton] at hb
      subst hb
      exact huo ha⟩
  have hq'mem : ∀ v ∈ (kahnRelax (adjList edges u) q ind).1,
      v ∈ q ∨ (v ∈ adjList edges u ∧ 0 < ind v) := hqmem.2
  refine ⟨?_, kb', ?_, kd', ?_, ?_, ?_⟩
  · intro v hv
    rcases hq'mem v hv with hv2 | ⟨hv2, _⟩
    · exact ka v (List.mem_cons_of_mem _ hv2)
    · exact target_mem_nodes hv2
  · rw [List.nodup_append]
    refine ⟨hord1nd, kahnRelax_nodup hq0 hqnd, ?_⟩
    intro a ha hb
    rcases hq'mem a hb with hb2 | ⟨_, hb3⟩
    · rcases List.mem_append.mp ha with ha2 | ha2
      · exact hdisj ha2 (List.mem_cons_of_mem _ hb2)
      · simp only [List.mem_singleton] at ha2
        subst ha2
        exact hunq hb2
    · have : ind a ≤ 0 := by
        rcases List.mem_append.mp ha with ha2 | ha2
        · exact ke a (List.mem_append_left _ ha2)
        · simp only [List.mem_singleton] at ha2
          subst ha2
          exact ke a (List.mem_append_right _ (List.mem_cons_self _ _))
      omega
  · intro v hv
    rcases List.mem_append.mp hv with hv2 | hv2
    · rw [hindeq v]
      have : ind v ≤ 0 := by
        rcases List.mem_append.mp hv2 with hv3 | hv3
        · exact ke v (List.mem_append_left _ hv3)
        · simp only [List.mem_singleton] at hv3
          subst hv3
          exact ke v (List.mem_append_right _ (List.mem_cons_self _ _))
      have hc : (0 : Int) ≤ ((adjList edges u).count v : Int) := by positivity
      omega
    · exact hnonpos v hv2
  · intro v hv u0 hu0
    rcases List.mem_append.mp hv with hv2 | hv2
    · have : v ∈ order ++ u :: q := by
        rcases List.mem_append.mp hv2 with hv3 | hv3
        · exact List.mem_append_left _ hv3
        · simp only [List.mem_singleton] at hv3
          subst hv3
          exact List.mem_append_right _ (List.mem_cons_self _ _)
      exact List.mem_append_left _ (kf v this u0 hu0)
    · rcases hq'mem v hv2 with hv3 | ⟨hv3, _⟩
      · exact List.mem_append_left _
          (kf v (List.mem_append_right _ (List.mem_cons_of_mem _ hv3)) u0 hu0)
      · refine inneighbors_mem_of_nonpos kb' hord1nd ?_ u0 hu0
        rw [← kd' v]
        exact hnonpos v hv2
  · intro v hv u0 hu0
    rcases List.mem_append.mp hv with hv2 | hv2
    · have hu0o : u0 ∈ order := kf v (List.mem_append_left _ hv2) u0 hu0
      rw [List.indexOf_append_of_mem hu0o, List.indexOf_append_of_mem hv2]
      exact kg v hv2 u0 hu0
    · simp only [List.mem_singleton] at hv2
      subst hv2
      have hu0o : u0 ∈ order :=
        kf v (List.mem_append_right _ (List.mem_cons_self _ _)) u0 hu0
      rw [List.indexOf_append_of_mem hu0o, List.indexOf_append_of_not_mem huo]
      have := List.indexOf_lt_length.mpr hu0o
      simp only [List.indexOf_cons_self]
      omega

theorem nodesList_nodup (edges : List Edge) : (nodesList edges).Nodup :=
  List.nodup_dedup _

theorem kahnLoop_spec {edges : List Edge} :
    ∀ (f : Nat) (q order : List Nat) (ind : Nat → Int),
    q.length + kahnWeight edges ind < f → KInv edges q order ind →
    ((∀ v ∈ kahnLoop (adjList edges) f q order ind, v ∈ nodesList edges) ∧
     (kahnLoop (adjList edges) f q order ind).Nodup ∧
     (∀ v ∈ kahnLoop (adjList edges) f q order ind, ∀ u, v ∈ adjList edges u →
       u ∈ kahnLoop (adjList edges) f q order ind ∧
       (kahnLoop (adjList edges) f q order ind).indexOf u <
       (kahnLoop (adjList edges) f q order ind).indexOf v)) := by
  intro f
  induction f with
  | zero => intro q order ind hm _; omega
  | succ f ih =>
    intro q order ind hm hinv
    match q with
    | [] =>
      simp only [kahnLoop]
      obtain ⟨ka, kb, kc, kd, ke, kf, kg⟩ := hinv
      rw [List.append_nil] at kc ke kf
      refine ⟨kb, kc, ?_⟩
      intro v hv u hu
      exact ⟨kf v hv u hu, kg v hv u hu⟩
    | u :: q =>
      simp only [kahnLoop]
      have hns : ∀ v ∈ adjList edges u, v ∈ nodesList edges :=
        fun v hv => target_mem_nodes hv
      have hmeas := @kahnRelax_measure edges (adjList edges u) q ind hns
      refine ih _ _ _ ?_ (KInv_step hinv)
      simp only [List.length_cons] at hm
      omega

theorem kahn_result_props {edges : List Edge} :
    (∀ v ∈ (get_topological_order_and_check_dag edges).1, v ∈ nodesList edges) ∧
    (get_topological_order_and_check_dag edges).1.Nodup ∧
    (∀ v ∈ (get_topological_order_and_check_dag edges).1, ∀ u,
      v ∈ adjList edges u →
      u ∈ (get_topological_order_and_check_dag edges).1 ∧
      (get_topological_order_and_check_dag edges).1.indexOf u <
      (get_topological_order_and_check_dag edges).1.indexOf v) := by
  have hinv : KInv edges
      ((nodesList edges).filter fun u => indeg0 edges u == 0) [] (indeg0 edges) := by
    refine ⟨?_, by simp, ?_, ?_, ?_, ?_, by simp⟩
    · intro v hv
      exact (List.mem_filter.mp hv).1
    · simp only [List.nil_append]
      exact List.Nodup.filter _ (nodesList_nodup edges)
    · intro v
      simp
    · intro v hv
      simp only [List.nil_append] at hv
      have := (List.mem_filter.mp hv).2
      simp only [beq_iff_eq] at this
      omega
    · intro v hv u hu
      simp only [List.nil_append] at hv
      have h0 := (List.mem_filter.mp hv).2
      simp only [beq_iff_eq] at h0
      exact inneighbors_mem_of_nonpos (by simp) (by simp) (by simp [h0]) u hu
  have hfuel : ((nodesList edges).filter fun u => indeg0 edges u == 0).length +
      kahnWeight edges (indeg0 edges) < kahnFuel edges := by
    have := List.length_filter_le (fun u => indeg0 edges u == 0) (nodesList edges)
    simp only [kahnFuel]
    omega
  exact kahnLoop_spec (kahnFuel edges) _ [] (indeg0 edges) hfuel hinv

theorem kahn_isdag_cover {edges : List Edge}
    (hdag : (get_topological_order_and_check_dag edges).2 = true) :
    ∀ v ∈ nodesList edges, v ∈ (get_topological_order_and_check_dag edges).1 := by
  obtain ⟨ho1, ho2, _⟩ := @kahn_result_props edges
  have hlen : (get_topological_order_and_check_dag edges).1.length =
      (nodesList edges).length := by
    have hb : ((get_topological_order_and_check_dag edges).1.length ==
        (nodesList edges).length) = true := by
      simpa [get_topological_order_and_check_dag] using hdag
    simpa using hb
  have hsub : (get_topological_order_and_check_dag edges).1.toFinset ⊆
      (nodesList edges).toFinset := by
    intro x hx
    exact List.mem_toFinset.mpr (ho1 x (List.mem_toFinset.mp hx))
  have hcards : (nodesList edges).toFinset.card ≤
      (get_topological_order_and_check_dag edges).1.toFinset.card := by
    rw [List.toFinset_card_of_nodup ho2, List.toFinset_card_of_nodup
      (nodesList_nodup edges), hlen]
  have heq := Finset.eq_of_subset_of_card_le hsub hcards
  intro v hv
  have : v ∈ (nodesList edges).toFinset := List.mem_toFinset.mpr hv
  rw [← heq] at this
  exact List.mem_toFinset.mp this

theorem transGen_indexOf_lt {edges : List Edge}
    (hdag : (get_topological_order_and_check_dag edges).2 = true) :
    ∀ a b, Relation.TransGen (AdjStep (adjList edges)) a b →
    b ∈ (get_topological_order_and_check_dag edges).1 →
    a ∈ (get_topological_order_and_check_dag edges).1 ∧
    (get_topological_order_and_check_dag edges).1.indexOf a <
    (get_topological_order_and_check_dag edges).1.indexOf b := by
  obtain ⟨_, _, ho3⟩ := @kahn_result_props edges
  intro a b htg
  induction htg with
  | single h => intro hb; exact ho3 _ hb _ h
  | tail htg h ih =>
    intro hc
    obtain ⟨hb, hlt⟩ := ho3 _ hc _ h
    obtain ⟨ha, hlt2⟩ := ih hb
    exact ⟨ha, lt_trans hlt2 hlt⟩

theorem kahn_isdag_no_cycle {edges : List Edge}
    (hdag : (get_topological_order_and_check_dag edges).2 = true) :
    ∀ v, ¬ Relation.TransGen (AdjStep (adjList edges)) v v := by
  intro v hcyc
  have hvnodes : v ∈ nodesList edges := by
    cases hcyc with
    | single h => exact target_mem_nodes h
    | tail htg h => exact target_mem_nodes h
  have hvord : v ∈ (get_topological_order_and_check_dag edges).1 :=
    kahn_isdag_cover hdag v hvnodes
  obtain ⟨_, hlt⟩ := transGen_indexOf_lt hdag v v hcyc hvord
  omega

theorem dirStep_adjStep {edges : List Edge} {a b : Nat}
    (h : DirStep edges a b) : AdjStep (adjList edges) a b := by
  refine mem_adjList_iff.mpr ⟨Edge.dir a b, h, ?_⟩
  simp [edgeOut]

theorem dirCycle_exists_dir_edge {edges : List Edge} {v : Nat}
    (h : Relation.TransGen (DirStep edges) v v) :
    ∃ a b, Edge.dir a b ∈ edges := by
  cases h with
  | single h => exact ⟨_, _, h⟩
  | tail _ h => exact ⟨_, _, h⟩

theorem dir_edge_not_purely_undirected {edges : List Edge} {a b : Nat}
    (h : Edge.dir a b ∈ edges) : isPurelyUndirected edges = false := by
  by_contra hc
  have hall : isPurelyUndirected edges = true := by
    cases hv : isPurelyUndirected edges
    · exact absurd hv hc
    · rfl
  have := List.all_eq_true.mp hall _ h
  simp at this

/-- C3: on every instance whose edges contain a directed cycle (a cycle
through `Edge.dir` edges), `solve_many_entry` returns the intractability
sentinel `ManyResult.npHard` (not an integer and not -1): the cycle makes
Kahn's check fail, and the presence of a directed edge rules out the
undirected-tree branch. -/
theorem many_cycle_np_hard (n E_count s t : Nat) (red_vertices : List Nat)
    (edges : List Edge) (h : ∃ v, Relation.TransGen (DirStep edges) v v) :
    solve_many_entry n E_count s t red_vertices edges = ManyResult.npHard := by
  obtain ⟨v, hcyc⟩ := h
  have hadjcyc : Relation.TransGen (AdjStep (adjList edges)) v v :=
    Relation.TransGen.mono (fun a b hab => dirStep_adjStep hab) hcyc
  have hdagf : (get_topological_order_and_check_dag edges).2 = false := by
    cases hdag : (get_topological_order_and_check_dag edges).2
    · rfl
    · exact absurd hadjcyc (kahn_isdag_no_cycle hdag v)
  obtain ⟨a, b, hab⟩ := dirCycle_exists_dir_edge hcyc
  have hpure : isPurelyUndirected edges = false :=
    dir_edge_not_purely_undirected hab
  simp only [solve_many_entry, hdagf, hpure, Bool.false_and, if_false,
    Bool.false_eq_true]

theorem many_cycle_np_hard_witness :
    (∃ v, Relation.TransGen (DirStep [Edge.dir 0 1, Edge.dir 1 0]) v v) ∧
    solve_many_entry 2 2 0 1 [] [Edge.dir 0 1, Edge.dir 1 0] =
      ManyResult.npHard := by
  have hyp : ∃ v, Relation.TransGen (DirStep [Edge.dir 0 1, Edge.dir 1 0]) v v := by
    have h1 : DirStep [Edge.dir 0 1, Edge.dir 1 0] 0 1 := by
      show Edge.dir 0 1 ∈ _
      simp
    have h2 : DirStep [Edge.dir 0 1, Edge.dir 1 0] 1 0 := by
      show Edge.dir 1 0 ∈ _
      simp
    exact ⟨0, Relation.TransGen.head h1 (Relation.TransGen.single h2)⟩
  exact ⟨hyp, many_cycle_np_hard 2 2 0 1 [] _ hyp⟩

/-- C9: any undirected edge is encoded as two opposite directed arcs,
which form a cycle, so the Kahn-based check of `solve_many_entry` never
reports a DAG when an undirected edge is present; hence the DAG
dynamic-programming branch runs only for all-directed edge lists. -/
theorem many_undirected_not_dag (edges : List Edge)
    (h : ∃ u v, Edge.undir u v ∈ edges) :
    (get_topological_order_and_check_dag edges).2 = false := by
  obtain ⟨u, v, hmem⟩ := h
  have hvu : u ∈ adjList edges v := by
    refine mem_adjList_iff.mpr ⟨Edge.undir u v, hmem, ?_⟩
    simp [edgeOut]
  have huv : v ∈ adjList edges u := by
    refine mem_adjList_iff.mpr ⟨Edge.undir u v, hmem, ?_⟩
    simp [edgeOut]
  have hcyc : Relation.TransGen (AdjStep (adjList edges)) v v :=
    Relation.TransGen.head hvu (Relation.TransGen.single huv)
  cases hdag : (get_topological_order_and_check_dag edges).2
  · rfl
  · exact absurd hcyc (kahn_isdag_no_cycle hdag v)

theorem many_undirected_not_dag_witness :
    (∃ u v, Edge.undir u v ∈ [Edge.undir 0 1]) ∧
    (get_topological_order_and_check_dag [Edge.undir 0 1]).2 = false := by
  have hyp : ∃ u v, Edge.undir u v ∈ [Edge.undir 0 1] := ⟨0, 1, by simp⟩
  exact ⟨hyp, many_undirected_not_dag _ hyp⟩

theorem dagRelax_mono {R : Finset Nat} {u : Nat} :
    ∀ {ns : List Nat} {dp : Nat → Int} (x : Nat),
    dp x ≤ dagRelax R u ns dp x := by
  intro ns
  induction ns with
  | nil => intro dp x; exact le_refl _
  | cons v vs ih =>
    intro dp x
    simp only [dagRelax]
    refine le_trans ?_ (ih x)
    by_cases hx : x = v
    · subst hx
      simp only [if_pos rfl]
      exact le_max_left _ _
    · simp [hx]

theorem dagOuter_mono {edges : List Edge} {R : Finset Nat} :
    ∀ {l : List Nat} {dp : Nat → Int} (x : Nat),
    dp x ≤ dagOuter (adjList edges) R l dp x := by
  intro l
  induction l with
  | nil => intro dp x; exact le_refl _
  | cons u us ih =>
    intro dp x
    simp only [dagOuter]
    by_cases hg : dp u ≠ -1
    · rw [if_pos hg]
      exact le_trans (dagRelax_mono x) (ih x)
    · rw [if_neg hg]
      exact ih x

theorem dagRelax_untouched {R : Finset Nat} {u : Nat} :
    ∀ {ns : List Nat} {dp : Nat → Int} {x : Nat}, x ∉ ns →
    dagRelax R u ns dp x = dp x := by
  intro ns
  induction ns with
  | nil => intro dp x _; rfl
  | cons v vs ih =>
    intro dp x hx
    simp only [dagRelax]
    rw [ih (fun hc => hx (List.mem_cons_of_mem _ hc))]
    have hxv : x ≠ v := fun hc => hx (hc ▸ List.mem_cons_self _ _)
    simp [hxv]

theorem dagOuter_untouched {edges : List Edge} {R : Finset Nat} :
    ∀ {l : List Nat} {dp : Nat → Int} {x : Nat},
    (∀ u ∈ l, x ∉ adjList edges u) →
    dagOuter (adjList edges) R l dp x = dp x := by
  intro l
  induction l with
  | nil => intro dp x _; rfl
  | cons u us ih =>
    intro dp x hx
    simp only [dagOuter]
    rw [ih (fun w hw => hx w (List.mem_cons_of_mem _ hw))]
    by_cases hg : dp u ≠ -1
    · rw [if_pos hg]
      exact dagRelax_untouched (hx u (List.mem_cons_self _ _))
    · rw [if_neg hg]

theorem dagOuter_append {edges : List Edge} {R : Finset Nat} :
    ∀ (l₁ l₂ : List Nat) (dp : Nat → Int),
    dagOuter (adjList edges) R (l₁ ++ l₂) dp =
    dagOuter (adjList edges) R l₂ (dagOuter (adjList edges) R l₁ dp) := by
  intro l₁
  induction l₁ with
  | nil => intro l₂ dp; rfl
  | cons u us ih =>
    intro l₂ dp
    simp only [List.cons_append, dagOuter]
    exact ih l₂ _

theorem dagRelax_lb {R : Finset Nat} {u : Nat} :
    ∀ {ns : List Nat} {dp : Nat → Int}, u ∉ ns →
    ∀ v ∈ ns, dp u + (if v ∈ R then 1 else 0) ≤ dagRelax R u ns dp v := by
  intro ns
  induction ns with
  | nil => intro dp _ v hv; simp at hv
  | cons n vs ih =>
    intro dp hu v hv
    have hun : u ≠ n := fun hc => hu (hc ▸ List.mem_cons_self _ _)
    have hu' : u ∉ vs := fun hc => hu (List.mem_cons_of_mem _ hc)
    simp only [dagRelax]
    have hdpu : (fun x => if x = n then max (dp n) (dp u + (if n ∈ R then 1 else 0))
        else dp x) u = dp u := by simp [hun]
    rcases List.mem_cons.mp hv with rfl | hv2
    · refine le_trans ?_ (dagRelax_mono v)
      simp only [if_pos rfl]
      exact le_trans (le_max_right _ _) (le_of_eq rfl)
    · have := @ih (fun x => if x = n then
        max (dp n) (dp u + (if n ∈ R then 1 else 0)) else dp x) hu' v hv2
      rw [hdpu] at this
      exact this

theorem isWalk_single {adj : Nat → List Nat} (v : Nat) :
    IsWalk adj v v [v] := by
  refine ⟨rfl, rfl, ?_⟩
  simp

theorem isWalk_snoc {adj : Nat → List Nat} {s u v : Nat} {p : List Nat}
    (hw : IsWalk adj s u p) (hv : v ∈ adj u) :
    IsWalk adj s v (p ++ [v]) := by
  obtain ⟨hh, hl, hc⟩ := hw
  have hne : p ≠ [] := by
    intro hc2
    rw [hc2] at hh
    simp at hh
  refine ⟨?_, ?_, ?_⟩
  · rw [List.head?_append_of_ne_nil _ hne, hh]
  · rw [List.getLast?_append_cons]
    rfl
  · rw [List.chain'_append]
    refine ⟨hc, by simp, ?_⟩
    intro x hx y hy
    simp only [List.head?_cons, Option.mem_def, Option.some.injEq] at hy
    subst hy
    rw [hl] at hx
    simp only [Option.mem_def, Option.some.injEq] at hx
    subst hx
    exact hv

theorem redCount_snoc {R : Finset Nat} {p : List Nat} {v : Nat} :
    redCount R (p ++ [v]) = redCount R p + (if v ∈ R then 1 else 0) := by
  simp only [redCount, List.countP_append, List.countP_cons, List.countP_nil]
  by_cases hv : v ∈ R <;> simp [hv]

theorem redCount_single {R : Finset Nat} {v : Nat} :
    redCount R [v] = if v ∈ R then 1 else 0 := by
  simp only [redCount, List.countP_cons, List.countP_nil]
  by_cases hv : v ∈ R <;> simp [hv]

theorem dpInit_realizable {adj : Nat → List Nat} {R : Finset Nat} {s : Nat} :
    DpRealizable adj R s (dpInit s R) := by
  constructor
  · intro v
    simp only [dpInit]
    by_cases hv : v = s
    · subst hv
      simp only [if_pos rfl]
      by_cases hs : v ∈ R <;> simp [hs]
    · simp [hv]
  · intro v hv
    simp only [dpInit] at hv ⊢
    by_cases hvs : v = s
    · subst hvs
      refine ⟨[v], isWalk_single v, ?_⟩
      rw [redCount_single]
      simp only [if_pos rfl]
      by_cases hs : v ∈ R <;> simp [hs]
    · simp [hvs] at hv

theorem dagRelax_realizable {adj : Nat → List Nat} {R : Finset Nat}
    {s u : Nat} :
    ∀ {ns : List Nat} {dp : Nat → Int}, DpRealizable adj R s dp →
    dp u ≠ -1 → (∀ v ∈ ns, v ∈ adj u) →
    DpRealizable adj R s (dagRelax R u ns dp) := by
  intro ns
  induction ns with
  | nil => intro dp h _ _; exact h
  | cons n vs ih =>
    intro dp hreal hu hns
    obtain ⟨hge, hr⟩ := hreal
    simp only [dagRelax]
    have hun : (fun x => if x = n then max (dp n) (dp u + (if n ∈ R then 1 else 0))
        else dp x) u ≠ -1 := by
      by_cases hxu : u = n
      · subst hxu
        simp only [if_pos rfl]
        have := hge u
        have h2 : -1 ≤ dp u := hge u
        intro hc
        rcases max_choice (dp u) (dp u + (if u ∈ R then 1 else 0)) with hm | hm <;>
          rw [hm] at hc
        · exact hu hc
        · have h3 : (0 : Int) ≤ if u ∈ R then 1 else 0 := by
            by_cases hR : u ∈ R <;> simp [hR]
          omega
      · simpa [hxu] using hu
    refine ih ⟨?_, ?_⟩ hun (fun v hv => hns v (List.mem_cons_of_mem _ hv))
    · intro v
      by_cases hv : v = n
      · subst hv
        simp only [if_pos rfl]
        exact le_trans (hge v) (le_max_left _ _)
      · simpa [hv] using hge v
    · intro v hv
      by_cases hvn : v = n
      · subst hvn
        simp only [if_pos rfl] at hv ⊢
        rcases max_choice (dp v) (dp u + (if v ∈ R then 1 else 0)) with hm | hm <;>
            rw [hm] at hv ⊢
        · exact hr v hv
        · obtain ⟨p, hp, hcnt⟩ := hr u hu
          refine ⟨p ++ [v], isWalk_snoc hp (hns v (List.mem_cons_self _ _)), ?_⟩
          rw [redCount_snoc]
          push_cast
          rw [hcnt]
      · simp only [if_neg hvn] at hv ⊢
        exact hr v hv

theorem dagOuter_realizable {edges : List Edge} {R : Finset Nat} {s : Nat} :
    ∀ {l : List Nat} {dp : Nat → Int}, DpRealizable (adjList edges) R s dp →
    DpRealizable (adjList edges) R s (dagOuter (adjList edges) R l dp) := by
  intro l
  induction l with
  | nil => intro dp h; exact h
  | cons u us ih =>
    intro dp hreal
    simp only [dagOuter]
    by_cases hg : dp u ≠ -1
    · rw [if_pos hg]
      exact ih (dagRelax_realizable hreal hg (fun v hv => hv))
    · rw [if_neg hg]
      exact ih hreal

theorem walk_redCount_le_dagOuter {edges : List Edge} {R : Finset Nat}
    {s : Nat} {L : List Nat} (hnd : L.Nodup)
    (hcov : ∀ v ∈ nodesList edges, v ∈ L)
    (hfwd : ∀ v ∈ L, ∀ u, v ∈ adjList edges u →
      u ∈ L ∧ L.indexOf u < L.indexOf v) :
    ∀ (p : List Nat), ∀ (v : Nat), IsWalk (adjList edges) s v p →
    (redCount R p : Int) ≤ dagOuter (adjList edges) R L (dpInit s R) v := by
  intro p
  induction p using List.reverseRecOn with
  | nil =>
    intro v hw
    obtain ⟨hh, _, _⟩ := hw
    simp at hh
  | append_singleton l a ih =>
    intro v hw
    have hav : a = v := by
      have := hw.2.1
      rw [List.getLast?_append_cons] at this
      simpa using this
    subst hav
    by_cases hl : l = []
    · subst hl
      have hsa : s = a := by
        have := hw.1
        simpa using this.symm
      have hinit : (redCount R [a] : Int) = dpInit s R a := by
        rw [redCount_single]
        simp only [dpInit, ← hsa, if_pos rfl]
        by_cases hs : s ∈ R <;> simp [hs]
      rw [List.nil_append, hinit]
      exact dagOuter_mono a
    · obtain ⟨u, hu⟩ : ∃ u, l.getLast? = some u := by
        cases l with
        | nil => exact absurd rfl hl
        | cons x xs => exact ⟨_, rfl⟩
      have hchain := List.chain'_append.mp hw.2.2
      have hstep : a ∈ adjList edges u := by
        refine hchain.2.2 u ?_ a ?_ <;> simp [hu]
      have hwl : IsWalk (adjList edges) s u l := by
        refine ⟨?_, hu, hchain.1⟩
        have := hw.1
        rwa [List.head?_append_of_ne_nil _ hl] at this
      have hIH := ih u hwl
      have haL0 : a ∈ L := hcov a (target_mem_nodes hstep)
      obtain ⟨huL, hltua⟩ := hfwd a haL0 u hstep
      obtain ⟨L₁, L₂, rfl⟩ := List.append_of_mem huL
      have hndparts := List.nodup_append.mp hnd
      have hu1 : u ∉ L₁ := fun hc =>
        hndparts.2.2 hc (List.mem_cons_self _ _)
      have hu2 : u ∉ L₂ := (List.nodup_cons.mp hndparts.2.1).1
      have hidxu : (L₁ ++ u :: L₂).indexOf u = L₁.length := by
        rw [List.indexOf_append_of_not_mem hu1, List.indexOf_cons_self]
        omega
      have hL2lb : ∀ w ∈ L₂, (L₁ ++ u :: L₂).indexOf w > L₁.length := by
        intro w hw2
        have hwne : w ≠ u := fun hc => hu2 (hc ▸ hw2)
        have hw1 : w ∉ L₁ := fun hc =>
          hndparts.2.2 hc (List.mem_cons_of_mem _ hw2)
        rw [List.indexOf_append_of_not_mem hw1,
          List.indexOf_cons_ne _ (Ne.symm hwne)]
        omega
      have hself : u ∉ adjList edges u := by
        intro hc
        obtain ⟨_, hlt⟩ := hfwd u huL u hc
        omega
      have hL2adj : ∀ w ∈ L₂, u ∉ adjList edges w := by
        intro w hw2 hc
        obtain ⟨_, hlt⟩ := hfwd u huL w hc
        have := hL2lb w hw2
        omega
      have hsplit : dagOuter (adjList edges) R (L₁ ++ u :: L₂) (dpInit s R) =
          dagOuter (adjList edges) R L₂
          (if dagOuter (adjList edges) R L₁ (dpInit s R) u ≠ -1
           then dagRelax R u (adjList edges u)
             (dagOuter (adjList edges) R L₁ (dpInit s R))
           else dagOuter (adjList edges) R L₁ (dpInit s R)) := by
        rw [dagOuter_append]
        rfl
      have hdpFu : dagOuter (adjList edges) R (L₁ ++ u :: L₂) (dpInit s R) u =
          dagOuter (adjList edges) R L₁ (dpInit s R) u := by
        rw [hsplit, dagOuter_untouched hL2adj]
        by_cases hg : dagOuter (adjList edges) R L₁ (dpInit s R) u ≠ -1
        · rw [if_pos hg]
          exact dagRelax_untouched hself
        · rw [if_neg hg]
      have hAu : (redCount R l : Int) ≤
          dagOuter (adjList edges) R L₁ (dpInit s R) u := by
        rw [← hdpFu]
        exact hIH
      have hAne : dagOuter (adjList edges) R L₁ (dpInit s R) u ≠ -1 := by
        have : (0 : Int) ≤ (redCount R l : Int) := by positivity
        omega
      have hBv : dagOuter (adjList edges) R L₁ (dpInit s R) u +
          (if a ∈ R then 1 else 0) ≤
          dagRelax R u (adjList edges u)
            (dagOuter (adjList edges) R L₁ (dpInit s R)) a :=
        dagRelax_lb hself a hstep
      have hfinal : dagRelax R u (adjList edges u)
          (dagOuter (adjList edges) R L₁ (dpInit s R)) a ≤
          dagOuter (adjList edges) R (L₁ ++ u :: L₂) (dpInit s R) a := by
        rw [hsplit, if_pos hAne]
        exact dagOuter_mono a
      rw [redCount_snoc]
      push_cast
      by_cases hR : a ∈ R
      · simp only [hR, if_true] at hBv ⊢
        omega
      · simp only [hR, if_false] at hBv ⊢
        omega

theorem chain'_mem_target {r : Nat → Nat → Prop} :
    ∀ {a : Nat} {t : List Nat}, List.Chain r a t → ∀ x ∈ t, ∃ u, r u x := by
  intro a t
  induction t generalizing a with
  | nil => intro _ x hx; simp at hx
  | cons b t' ih =>
    intro hch x hx
    rcases List.chain_cons.mp hch with ⟨hab, hrest⟩
    rcases List.mem_cons.mp hx with rfl | hx2
    · exact ⟨a, hab⟩
    · exact ih hrest x hx2

theorem isWalk_mem_vertices {adj : Nat → List Nat} {s v : Nat} {p : List Nat}
    (hw : IsWalk adj s v p) : ∀ x ∈ p, x = s ∨ ∃ u, x ∈ adj u := by
  obtain ⟨hh, _, hc⟩ := hw
  match p, hh, hc with
  | a :: rest, hh, hc =>
    have has : a = s := by simpa using hh
    subst has
    intro x hx
    rcases List.mem_cons.mp hx with rfl | hx2
    · exact Or.inl rfl
    · have hchain : List.Chain (fun y z => z ∈ adj y) a rest := hc
      exact Or.inr (chain'_mem_target hchain x hx2)

theorem nodeWalk_endpoints_mem {edges : List Edge} {s t : Nat} {p : List Nat}
    (h : NodeWalk edges s t p) :
    s ∈ nodesList edges ∧ t ∈ nodesList edges := by
  obtain ⟨⟨hh, hl, _⟩, hmem⟩ := h
  constructor
  · exact hmem s (List.mem_of_mem_head? hh)
  · obtain ⟨hne, heq⟩ := List.mem_getLast?_eq_getLast hl
    exact hmem t (heq ▸ List.getLast_mem hne)

/-- C2: whenever the Kahn classifier reports a DAG, `solve_many_entry`
answers through the topological-order dynamic programming, and the value
is the maximum red-vertex count over all s-to-t walks of the edge-derived
graph, or -1 when no such walk exists (in particular when `s` or `t` is
missing from the edge-derived vertex set, the spec's notion of
unreachable). -/
theorem many_dag_dp_correct (n E_count s t : Nat) (red_vertices : List Nat)
    (edges : List Edge)
    (hdag : (get_topological_order_and_check_dag edges).2 = true) :
    (¬ (∃ p, NodeWalk edges s t p) ∧
      solve_many_entry n E_count s t red_vertices edges = ManyResult.val (-1)) ∨
    (∃ m : Nat,
      solve_many_entry n E_count s t red_vertices edges = ManyResult.val m ∧
      (∃ p, NodeWalk edges s t p ∧ redCount red_vertices.toFinset p = m) ∧
      (∀ p, NodeWalk edges s t p → redCount red_vertices.toFinset p ≤ m)) := by
  have hentry : solve_many_entry n E_count s t red_vertices edges =
      ManyResult.val (solve_many_dag edges s t red_vertices.toFinset
        (get_topological_order_and_check_dag edges).1) := by
    simp only [solve_many_entry, hdag, if_true]
  obtain ⟨hcov0, hndL, hfwdL⟩ := @kahn_result_props edges
  have hcovL := kahn_isdag_cover hdag
  by_cases hs : s ∈ nodesList edges
  · by_cases ht : t ∈ nodesList edges
    · have hdageq : solve_many_dag edges s t red_vertices.toFinset
          (get_topological_order_and_check_dag edges).1 =
          dagOuter (adjList edges) red_vertices.toFinset
            (get_topological_order_and_check_dag edges).1
            (dpInit s red_vertices.toFinset) t := by
        simp only [solve_many_dag, if_pos hs, if_pos ht]
      set dpF := dagOuter (adjList edges) red_vertices.toFinset
        (get_topological_order_and_check_dag edges).1
        (dpInit s red_vertices.toFinset) with hdpF
      by_cases hval : dpF t = -1
      · refine Or.inl ⟨?_, by rw [hentry, hdageq, hval]⟩
        rintro ⟨p, hnw⟩
        have hle := @walk_redCount_le_dagOuter edges red_vertices.toFinset s
          (get_topological_order_and_check_dag edges).1 hndL hcovL hfwdL p t hnw.1
        rw [← hdpF, hval] at hle
        have : (0 : Int) ≤ (redCount red_vertices.toFinset p : Int) := by
          positivity
        omega
      · obtain ⟨hge, hreal⟩ := @dagOuter_realizable edges red_vertices.toFinset s
          (get_topological_order_and_check_dag edges).1
          (dpInit s red_vertices.toFinset) dpInit_realizable
        obtain ⟨p, hwp, hcnt⟩ := hreal t hval
        rw [← hdpF] at hcnt
        refine Or.inr ⟨redCount red_vertices.toFinset p, ?_, ⟨p, ⟨hwp, ?_⟩, rfl⟩, ?_⟩
        · rw [hentry, hdageq, ← hcnt]
        · intro x hx
          rcases isWalk_mem_vertices hwp x hx with rfl | ⟨u, hu⟩
          · exact hs
          · exact target_mem_nodes hu
        · intro q hq
          have hle := @walk_redCount_le_dagOuter edges red_vertices.toFinset s
            (get_topological_order_and_check_dag edges).1 hndL hcovL hfwdL q t hq.1
          rw [← hdpF, ← hcnt] at hle
          exact_mod_cast hle
    · refine Or.inl ⟨?_, ?_⟩
      · rintro ⟨p, hnw⟩
        exact ht (nodeWalk_endpoints_mem hnw).2
      · rw [hentry]
        simp only [solve_many_dag, if_pos hs, if_neg ht]
  · refine Or.inl ⟨?_, ?_⟩
    · rintro ⟨p, hnw⟩
      exact hs (nodeWalk_endpoints_mem hnw).1
    · rw [hentry]
      simp only [solve_many_dag, if_neg hs]

theorem many_dag_dp_correct_witness :
    (get_topological_order_and_check_dag [Edge.dir 0 1]).2 = true ∧
    ((¬ (∃ p, NodeWalk [Edge.dir 0 1] 0 1 p) ∧
      solve_many_entry 2 1 0 1 [1] [Edge.dir 0 1] = ManyResult.val (-1)) ∨
    (∃ m : Nat,
      solve_many_entry 2 1 0 1 [1] [Edge.dir 0 1] = ManyResult.val m ∧
      (∃ p, NodeWalk [Edge.dir 0 1] 0 1 p ∧ redCount [1].toFinset p = m) ∧
      (∀ p, NodeWalk [Edge.dir 0 1] 0 1 p → redCount [1].toFinset p ≤ m))) := by
  have hdag : (get_topological_order_and_check_dag [Edge.dir 0 1]).2 = true := by
    rfl
  exact ⟨hdag, many_dag_dp_correct 2 1 0 1 [1] [Edge.dir 0 1] hdag⟩

theorem mem_image_color {red vis : Finset Nat} {n : Nat} :
    ((n, if n ∈ red then true else false) ∈
      vis.image fun v => (v, if v ∈ red then true else false)) ↔ n ∈ vis := by
  constructor
  · intro h
    obtain ⟨v, hv, heq⟩ := Finset.mem_image.mp h
    have : v = n := congrArg Prod.fst heq
    subst this
    exact hv
  · intro h
    exact Finset.mem_image.mpr ⟨n, h, rfl⟩

theorem altScan_ref_eq {red : Finset Nat} {t : Nat} :
    ∀ (c : Bool) (ns : List Nat) (q : List (Nat × Bool)) (vis : Finset Nat),
    altScanRef red t c ns q
      (vis.image fun v => (v, if v ∈ red then true else false)) =
    Option.map (fun p => (p.1,
      p.2.image fun v => (v, if v ∈ red then true else false)))
      (altScan red t c ns q vis) := by
  intro c ns
  induction ns with
  | nil => intro q vis; rfl
  | cons n ns ih =>
    intro q vis
    simp only [altScan, altScanRef]
    by_cases hv : n ∈ vis
    · rw [if_pos (mem_image_color.mpr hv), if_pos hv]
      exact ih q vis
    · rw [if_neg (fun hc => hv (mem_image_color.mp hc)), if_neg hv]
      cases c with
      | true =>
        simp only [if_true]
        by_cases hr : n ∈ red
        · rw [if_pos hr, if_pos hr]
          exact ih q vis
        · rw [if_neg hr, if_neg hr]
          by_cases hnt : n = t
          · rw [if_pos hnt, if_pos hnt]
            rfl
          · rw [if_neg hnt, if_neg hnt]
            have himg : insert (n, false)
                (vis.image fun v => (v, if v ∈ red then true else false)) =
                (insert n vis).image fun v => (v, if v ∈ red then true else false) := by
              rw [Finset.image_insert]
              simp [hr]
            rw [himg]
            exact ih _ _
      | false =>
        simp only [Bool.false_eq_true, if_false]
        by_cases hr : n ∈ red
        · rw [if_pos hr, if_pos hr]
          by_cases hnt : n = t
          · rw [if_pos hnt, if_pos hnt]
            rfl
          · rw [if_neg hnt, if_neg hnt]
            have himg : insert (n, true)
                (vis.image fun v => (v, if v ∈ red then true else false)) =
                (insert n vis).image fun v => (v, if v ∈ red then true else false) := by
              rw [Finset.image_insert]
              simp [hr]
            rw [himg]
            exact ih _ _
        · rw [if_neg hr, if_neg hr]
          exact ih q vis

theorem altLoop_ref_eq {adj : Nat → List Nat} {red : Finset Nat} {t : Nat} :
    ∀ (f : Nat) (q : List (Nat × Bool)) (vis : Finset Nat),
    altLoopRef adj red t f q
      (vis.image fun v => (v, if v ∈ red then true else false)) =
    altLoop adj red t f q vis := by
  intro f
  induction f with
  | zero => intro q vis; rfl
  | succ f ih =>
    intro q vis
    match q with
    | [] => rfl
    | (u, c) :: q =>
      simp only [altLoop, altLoopRef]
      rw [altScan_ref_eq]
      rcases hscan : altScan red t c (adj u) q vis with _ | ⟨q', vis'⟩
      · rfl
      · simp only [Option.map_some]
        exact ih q' vis'

/-- C7: the implemented alternate search, which marks visited by vertex
identity alone, returns the same boolean as the reference search over
`(vertex, carried-color)` states with a per-state visited set: every
enqueued state carries the vertex's actual fixed color, so the two visited
disciplines coincide. -/
theorem alternate_eq_per_state_reference (n : Nat) (edges : List Edge)
    (s t : Nat) (red : Finset Nat) :
    alternate_solution n edges s t red = alternateRef n edges s t red := by
  unfold alternate_solution alternateRef
  by_cases hred : red = ∅
  · simp [hred]
  · rw [if_neg hred, if_neg hred]
    by_cases hst : s = t
    · simp [hst]
    · rw [if_neg hst, if_neg hst]
      have himg : ({(s, if s ∈ red then true else false)} : Finset (Nat × Bool)) =
          ({s} : Finset Nat).image fun v => (v, if v ∈ red then true else false) := by
        simp
      rw [himg, altLoop_ref_eq]

/-- C10: when `s == t`, `solve_few` returns `1` if `s` is red else `0`
immediately at the first pop of the priority queue, regardless of the edge
list (membership of `s` in the graph is never checked). -/
theorem few_self_returns_start_cost (n : Nat) (edges : List Edge)
    (s t : Nat) (red : Finset Nat) (h : s = t) :
    solve_few n edges s t red = if s ∈ red then (1 : Int) else 0 := by
  subst h
  unfold solve_few
  rw [show insertHeap ((if s ∈ red then 1 else 0), s) [] =
    [((if s ∈ red then 1 else 0), s)] from rfl]
  rw [dijkstraLoop]
  simp only [if_pos rfl]
  by_cases hs : s ∈ red <;> simp [hs]

theorem few_self_returns_start_cost_witness :
    (0 : Nat) = 0 ∧ solve_few 1 [] 0 0 {0} = 1 := by
  refine ⟨rfl, ?_⟩
  have := few_self_returns_start_cost 1 [] 0 0 {0} rfl
  simpa using this

theorem heapLe_total (a b : Nat × Nat) : heapLe a b ∨ heapLe b a := by
  unfold heapLe
  omega

theorem heapLe_trans {a b c : Nat × Nat} (h1 : heapLe a b) (h2 : heapLe b c) :
    heapLe a c := by
  unfold heapLe at *
  omega

theorem mem_insertHeap {x e : Nat × Nat} :
    ∀ {h : List (Nat × Nat)}, e ∈ insertHeap x h ↔ e = x ∨ e ∈ h := by
  intro h
  induction h with
  | nil => simp [insertHeap]
  | cons y ys ih =>
    simp only [insertHeap]
    by_cases hle : heapLe x y
    · simp [hle]
    · rw [if_neg hle]
      simp only [List.mem_cons, ih]
      tauto

theorem pairwise_insertHeap {x : Nat × Nat} :
    ∀ {h : List (Nat × Nat)}, List.Pairwise heapLe h →
    List.Pairwise heapLe (insertHeap x h) := by
  intro h
  induction h with
  | nil => intro _; simp [insertHeap]
  | cons y ys ih =>
    intro hp
    obtain ⟨hy, hys⟩ := List.pairwise_cons.mp hp
    simp only [insertHeap]
    by_cases hle : heapLe x y
    · rw [if_pos hle]
      refine List.pairwise_cons.mpr ⟨?_, hp⟩
      intro e he
      rcases List.mem_cons.mp he with rfl | he2
      · exact hle
      · exact heapLe_trans hle (hy e he2)
    · rw [if_neg hle]
      have hyx : heapLe y x := (heapLe_total x y).resolve_left hle
      refine List.pairwise_cons.mpr ⟨?_, ih hys⟩
      intro e he
      rcases mem_insertHeap.mp he with rfl | he2
      · exact hyx
      · exact hy e he2

theorem head_min_of_pairwise {c v : Nat} {rest : List (Nat × Nat)}
    (hp : List.Pairwise heapLe ((c, v) :: rest)) :
    ∀ e ∈ (c, v) :: rest, c ≤ e.1 := by
  intro e he
  rcases List.mem_cons.mp he with rfl | he2
  · exact le_refl _
  · have := (List.pairwise_cons.mp hp).1 e he2
    unfold heapLe at this
    rcases this with h | ⟨h, _⟩
    · omega
    · omega

theorem fewRelax_spec {red : Finset Nat} {c : Nat} :
    ∀ (ns : List Nat) (h : List (Nat × Nat)) (dist : Nat → Option Nat),
    (∀ x, (fewRelax red c ns h dist).2 x = dist x ∨
      (x ∈ ns ∧ (fewRelax red c ns h dist).2 x =
        some (c + (if x ∈ red then 1 else 0)) ∧
       (c + (if x ∈ red then 1 else 0), x) ∈ (fewRelax red c ns h dist).1 ∧
       (∀ dx, dist x = some dx → c + (if x ∈ red then 1 else 0) < dx))) ∧
    (∀ e ∈ h, e ∈ (fewRelax red c ns h dist).1) ∧
    (∀ e ∈ (fewRelax red c ns h dist).1, e ∈ h ∨
      ∃ x ∈ ns, e = (c + (if x ∈ red then 1 else 0), x)) ∧
    (∀ x ∈ ns, ∃ dx', (fewRelax red c ns h dist).2 x = some dx' ∧
      dx' ≤ c + (if x ∈ red then 1 else 0)) := by
  intro ns
  induction ns with
  | nil =>
    intro h dist
    exact ⟨fun x => Or.inl rfl, fun e he => he, fun e he => Or.inl he,
      fun x hx => absurd hx (List.not_mem_nil _)⟩
  | cons nb ns ih =>
    intro h dist
    rcases hdn : dist nb with _ | dn
    · -- unset: push
      have hstep : fewRelax red c (nb :: ns) h dist =
          fewRelax red c ns (insertHeap (c + (if nb ∈ red then 1 else 0), nb) h)
            (fun x => if x = nb then some (c + (if nb ∈ red then 1 else 0))
             else dist x) := by
        simp only [fewRelax, hdn]
      rw [hstep]
      obtain ⟨ih1, ih2, ih3, ih4⟩ := ih
        (insertHeap (c + (if nb ∈ red then 1 else 0), nb) h)
        (fun x => if x = nb then some (c + (if nb ∈ red then 1 else 0))
         else dist x)
      refine ⟨?_, ?_, ?_, ?_⟩
      · intro x
        rcases ih1 x with hx | ⟨hx1, hx2, hx3, hx4⟩
        · by_cases hxnb : x = nb
          · subst hxnb
            refine Or.inr ⟨List.mem_cons_self _ _, ?_, ?_, ?_⟩
            · rw [hx]
              simp
            · have hmem0 : (c + (if x ∈ red then 1 else 0), x) ∈
                  insertHeap (c + (if x ∈ red then 1 else 0), x) h :=
                mem_insertHeap.mpr (Or.inl rfl)
              exact ih2 _ hmem0
            · intro dx hdx
              rw [hdn] at hdx
              exact absurd hdx (by simp)
          · rw [hx]
            exact Or.inl (by simp [hxnb])
        · by_cases hxnb : x = nb
          · subst hxnb
            refine Or.inr ⟨List.mem_cons_self _ _, hx2, hx3, ?_⟩
            intro dx hdx
            rw [hdn] at hdx
            exact absurd hdx (by simp)
          · refine Or.inr ⟨List.mem_cons_of_mem _ hx1, hx2, hx3, ?_⟩
            intro dx hdx
            have := hx4 dx
            simp only [if_neg hxnb] at this
            exact this hdx
      · intro e he
        exact ih2 e (mem_insertHeap.mpr (Or.inr he))
      · intro e he
        rcases ih3 e he with he2 | ⟨x, hx1, hx2⟩
        · rcases mem_insertHeap.mp he2 with rfl | he3
          · exact Or.inr ⟨nb, List.mem_cons_self _ _, rfl⟩
          · exact Or.inl he3
        · exact Or.inr ⟨x, List.mem_cons_of_mem _ hx1, hx2⟩
      · intro x hx
        rcases List.mem_cons.mp hx with rfl | hx2
        · rcases ih1 x with hx3 | ⟨_, hx3, _, _⟩
          · rw [hx3]
            simp only [if_pos rfl]
            exact ⟨_, rfl, le_refl _⟩
          · rw [hx3]
            exact ⟨_, rfl, le_refl _⟩
        · exact ih4 x hx2
    · by_cases himp : c + (if nb ∈ red then 1 else 0) < dn
      · -- strict improvement: push
        have hstep : fewRelax red c (nb :: ns) h dist =
            fewRelax red c ns
              (insertHeap (c + (if nb ∈ red then 1 else 0), nb) h)
              (fun x => if x = nb then some (c + (if nb ∈ red then 1 else 0))
               else dist x) := by
          simp only [fewRelax, hdn, if_pos himp]
        rw [hstep]
        obtain ⟨ih1, ih2, ih3, ih4⟩ := ih
          (insertHeap (c + (if nb ∈ red then 1 else 0), nb) h)
          (fun x => if x = nb then some (c + (if nb ∈ red then 1 else 0))
           else dist x)
        refine ⟨?_, ?_, ?_, ?_⟩
        · intro x
          rcases ih1 x with hx | ⟨hx1, hx2, hx3, hx4⟩
          · by_cases hxnb : x = nb
            · subst hxnb
              refine Or.inr ⟨List.mem_cons_self _ _, ?_, ?_, ?_⟩
              · rw [hx]
                simp
              · have hmem0 : (c + (if x ∈ red then 1 else 0), x) ∈
                    insertHeap (c + (if x ∈ red then 1 else 0), x) h :=
                  mem_insertHeap.mpr (Or.inl rfl)
                exact ih2 _ hmem0
              · intro dx hdx
                rw [hdn] at hdx
                injection hdx with hdx
                omega
            · rw [hx]
              exact Or.inl (by simp [hxnb])
          · by_cases hxnb : x = nb
            · subst hxnb
              refine Or.inr ⟨List.mem_cons_self _ _, hx2, hx3, ?_⟩
              intro dx hdx
              rw [hdn] at hdx
              injection hdx with hdx
              omega
            · refine Or.inr ⟨List.mem_cons_of_mem _ hx1, hx2, hx3, ?_⟩
              intro dx hdx
              have := hx4 dx
              simp only [if_neg hxnb] at this
              exact this hdx
        · intro e he
          exact ih2 e (mem_insertHeap.mpr (Or.inr he))
        · intro e he
          rcases ih3 e he with he2 | ⟨x, hx1, hx2⟩
          · rcases mem_insertHeap.mp he2 with rfl | he3
            · exact Or.inr ⟨nb, List.mem_cons_self _ _, rfl⟩
            · exact Or.inl he3
          · exact Or.inr ⟨x, List.mem_cons_of_mem _ hx1, hx2⟩
        · intro x hx
          rcases List.mem_cons.mp hx with rfl | hx2
          · rcases ih1 x with hx3 | ⟨_, hx3, _, _⟩
            · rw [hx3]
              simp only [if_pos rfl]
              exact ⟨_, rfl, le_refl _⟩
            · rw [hx3]
              exact ⟨_, rfl, le_refl _⟩
          · exact ih4 x hx2
      · -- no improvement
        have hstep : fewRelax red c (nb :: ns) h dist =
            fewRelax red c ns h dist := by
          simp only [fewRelax, hdn, if_neg himp]
        rw [hstep]
        obtain ⟨ih1, ih2, ih3, ih4⟩ := ih h dist
        refine ⟨?_, ih2, ?_, ?_⟩
        · intro x
          rcases ih1 x with hx | ⟨hx1, hx2, hx3, hx4⟩
          · exact Or.inl hx
          · exact Or.inr ⟨List.mem_cons_of_mem _ hx1, hx2, hx3, hx4⟩
        · intro e he
          rcases ih3 e he with he2 | ⟨x, hx1, hx2⟩
          · exact Or.inl he2
          · exact Or.inr ⟨x, List.mem_cons_of_mem _ hx1, hx2⟩
        · intro x hx
          rcases List.mem_cons.mp hx with rfl | hx2
          · rcases ih1 x with hx3 | ⟨_, hx3, _, _⟩
            · rw [hx3, hdn]
              exact ⟨dn, rfl, by omega⟩
            · rw [hx3]
              exact ⟨_, rfl, le_refl _⟩
          · exact ih4 x hx2

theorem fewRelax_pairwise {red : Finset Nat} {c : Nat} :
    ∀ (ns : List Nat) (h : List (Nat × Nat)) (dist : Nat → Option Nat),
    List.Pairwise heapLe h →
    List.Pairwise heapLe (fewRelax red c ns h dist).1 := by
  intro ns
  induction ns with
  | nil => intro h dist hp; exact hp
  | cons nb ns ih =>
    intro h dist hp
    rcases hdn : dist nb with _ | dn
    · rw [show fewRelax red c (nb :: ns) h dist = fewRelax red c ns
          (insertHeap (c + (if nb ∈ red then 1 else 0), nb) h)
          (fun x => if x = nb then some (c + (if nb ∈ red then 1 else 0))
           else dist x) by simp only [fewRelax, hdn]]
      exact ih _ _ (pairwise_insertHeap hp)
    · by_cases himp : c + (if nb ∈ red then 1 else 0) < dn
      · rw [show fewRelax red c (nb :: ns) h dist = fewRelax red c ns
            (insertHeap (c + (if nb ∈ red then 1 else 0), nb) h)
            (fun x => if x = nb then some (c + (if nb ∈ red then 1 else 0))
             else dist x) by simp only [fewRelax, hdn, if_pos himp]]
        exact ih _ _ (pairwise_insertHeap hp)
      · rw [show fewRelax red c (nb :: ns) h dist = fewRelax red c ns h dist
          by simp only [fewRelax, hdn, if_neg himp]]
        exact ih _ _ hp

theorem dijk_cut {edges : List Edge} {red : Finset Nat} {s t : Nat}
    {heap : List (Nat × Nat)} {dist : Nat → Option Nat} {S : Finset Nat}
    (hinv : DijkInv edges red s t heap dist S) :
    ∀ (p : List Nat) (z : Nat), IsWalk (adjList edges) s z p →
    (∃ dz, dist z = some dz ∧ dz ≤ redCount red p) ∨
    (∃ e ∈ heap, e.1 ≤ redCount red p) := by
  obtain ⟨_, _, _, hopt, hrelaxed, hunsettled, _, _, hsrc⟩ := hinv
  intro p
  induction p using List.reverseRecOn with
  | nil =>
    intro z hw
    obtain ⟨hh, _, _⟩ := hw
    simp at hh
  | append_singleton l a ih =>
    intro z hw
    have haz : a = z := by
      have := hw.2.1
      rw [List.getLast?_append_cons] at this
      simpa using this
    subst haz
    by_cases hl : l = []
    · subst hl
      have hsa : s = a := by
        have := hw.1
        simpa using this.symm
      obtain ⟨ds, hds, hdsle⟩ := hsrc
      refine Or.inl ⟨ds, by rw [← hsa]; exact hds, ?_⟩
      rw [← hsa]
      simpa [redCount_single] using hdsle
    · obtain ⟨u, hu⟩ : ∃ u, l.getLast? = some u := by
        cases l with
        | nil => exact absurd rfl hl
        | cons x xs => exact ⟨_, rfl⟩
      have hchain := List.chain'_append.mp hw.2.2
      have hstep : a ∈ adjList edges u := by
        refine hchain.2.2 u ?_ a ?_ <;> simp [hu]
      have hwl : IsWalk (adjList edges) s u l := by
        refine ⟨?_, hu, hchain.1⟩
        have := hw.1
        rwa [List.head?_append_of_ne_nil _ hl] at this
      have hcle : redCount red l + (if a ∈ red then 1 else 0) =
          redCount red (l ++ [a]) := (redCount_snoc).symm
      have hle0 : redCount red l ≤ redCount red (l ++ [a]) := by omega
      rcases ih u hwl with ⟨du, hdu, hdule⟩ | ⟨e, he, hele⟩
      · by_cases huS : u ∈ S
        · obtain ⟨dv, dx, hdv, hdx, hdxle⟩ := hrelaxed u huS a hstep
          rw [hdu] at hdv
          injection hdv with hdv
          subst hdv
          refine Or.inl ⟨dx, hdx, ?_⟩
          omega
        · refine Or.inr ⟨(du, u), hunsettled u huS du hdu, ?_⟩
          simpa using le_trans hdule hle0
      · exact Or.inr ⟨e, he, le_trans hele hle0⟩

theorem dijk_empty_no_walk {edges : List Edge} {red : Finset Nat} {s t : Nat}
    {dist : Nat → Option Nat} {S : Finset Nat}
    (hinv : DijkInv edges red s t [] dist S) :
    ¬ ∃ p, IsWalk (adjList edges) s t p := by
  obtain ⟨_, _, _, _, hrelaxed, hunsettled, _, htS, hsrc⟩ := hinv
  have hall : ∀ (p : List Nat) (z : Nat), IsWalk (adjList edges) s z p →
      z ∈ S := by
    intro p
    induction p using List.reverseRecOn with
    | nil =>
      intro z hw
      obtain ⟨hh, _, _⟩ := hw
      simp at hh
    | append_singleton l a ih =>
      intro z hw
      have haz : a = z := by
        have := hw.2.1
        rw [List.getLast?_append_cons] at this
        simpa using this
      subst haz
      by_cases hl : l = []
      · subst hl
        have hsa : s = a := by
          have := hw.1
          simpa using this.symm
        subst hsa
        by_contra hsS
        obtain ⟨ds, hds, _⟩ := hsrc
        exact absurd (hunsettled s hsS ds hds) (List.not_mem_nil _)
      · obtain ⟨u, hu⟩ : ∃ u, l.getLast? = some u := by
          cases l with
          | nil => exact absurd rfl hl
          | cons x xs => exact ⟨_, rfl⟩
        have hchain := List.chain'_append.mp hw.2.2
        have hstep : a ∈ adjList edges u := by
          refine hchain.2.2 u ?_ a ?_ <;> simp [hu]
        have hwl : IsWalk (adjList edges) s u l := by
          refine ⟨?_, hu, hchain.1⟩
          have := hw.1
          rwa [List.head?_append_of_ne_nil _ hl] at this
        have huS := ih u hwl
        obtain ⟨dv, dx, _, hdx, _⟩ := hrelaxed u huS a hstep
        by_contra haS
        exact absurd (hunsettled a haS dx hdx) (List.not_mem_nil _)
  rintro ⟨p, hp⟩
  exact htS (hall p t hp)

theorem dijk_stale_preserve {edges : List Edge} {red : Finset Nat}
    {s t c v : Nat} {rest : List (Nat × Nat)} {dist : Nat → Option Nat}
    {S : Finset Nat} {d : Nat}
    (hinv : DijkInv edges red s t ((c, v) :: rest) dist S)
    (hd : dist v = some d) (hlt : d < c) :
    DijkInv edges red s t rest dist S := by
  obtain ⟨h0, h1, h2, h3, h4, h5, h6, h7, h8⟩ := hinv
  refine ⟨(List.pairwise_cons.mp h0).2,
    fun e he => h1 e (List.mem_cons_of_mem _ he), h2, h3, h4, ?_,
    fun w hw e he => h6 w hw e (List.mem_cons_of_mem _ he), h7, h8⟩
  intro w hwS c' hc'
  have hmem := h5 w hwS c' hc'
  rcases List.mem_cons.mp hmem with heq | hmem2
  · exfalso
    have hwv : w = v := congrArg Prod.snd heq
    have hcc : c' = c := congrArg Prod.fst heq
    subst hwv
    rw [hd] at hc'
    injection hc' with hc'
    omega
  · exact hmem2

theorem dijk_settle_preserve {edges : List Edge} {red : Finset Nat}
    {s t c v : Nat} {rest : List (Nat × Nat)} {dist : Nat → Option Nat}
    {S : Finset Nat}
    (hinv : DijkInv edges red s t ((c, v) :: rest) dist S)
    (hvt : v ≠ t) (hdv : dist v = some c) :
    DijkInv edges red s t
      (fewRelax red c (adjList edges v) rest dist).1
      (fewRelax red c (adjList edges v) rest dist).2
      (insert v S) := by
  have hcut := dijk_cut hinv
  obtain ⟨h0, h1, h2, h3, h4, h5, h6, h7, h8⟩ := hinv
  obtain ⟨fr1, fr2, fr3, fr4⟩ := fewRelax_spec (adjList edges v) rest dist
  obtain ⟨⟨pv, hpv, hpvc⟩, _⟩ := h1 (c, v) (List.mem_cons_self _ _)
  have hheadmin := head_min_of_pairwise h0
  have hsettle : ∀ p, IsWalk (adjList edges) s v p → c ≤ redCount red p := by
    intro p hp
    rcases hcut p v hp with ⟨dz, hdz, hdzle⟩ | ⟨e, he, hele⟩
    · rw [hdv] at hdz
      injection hdz with hdz
      omega
    · exact le_trans (hheadmin e he) hele
  have hkeep : ∀ u du, dist u = some du → du ≤ c →
      (fewRelax red c (adjList edges v) rest dist).2 u = some du := by
    intro u du hdu hduc
    rcases fr1 u with he | ⟨_, _, _, himp⟩
    · rw [he, hdu]
    · exfalso
      have := himp du hdu
      omega
  have hdv' : (fewRelax red c (adjList edges v) rest dist).2 v = some c :=
    hkeep v c hdv (le_refl _)
  have hSkeep : ∀ u ∈ S, ∃ du, dist u = some du ∧
      (fewRelax red c (adjList edges v) rest dist).2 u = some du ∧ du ≤ c := by
    intro u hu
    obtain ⟨du, hdu, hduc⟩ := h6 u hu (c, v) (List.mem_cons_self _ _)
    exact ⟨du, hdu, hkeep u du hdu hduc, hduc⟩
  have hbound : ∀ e ∈ (fewRelax red c (adjList edges v) rest dist).1,
      c ≤ e.1 := by
    intro e he
    rcases fr3 e he with he2 | ⟨x, hx, rfl⟩
    · exact hheadmin e (List.mem_cons_of_mem _ he2)
    · simp
  refine ⟨?_, ?_, ?_, ?_, ?_, ?_, ?_, ?_, ?_⟩
  · exact fewRelax_pairwise _ _ _ (List.pairwise_cons.mp h0).2
  · intro e he
    rcases fr3 e he with he2 | ⟨x, hx, rfl⟩
    · obtain ⟨hwalk, ⟨d2, hd2, hd2le⟩⟩ := h1 e (List.mem_cons_of_mem _ he2)
      refine ⟨hwalk, ?_⟩
      rcases fr1 e.2 with heq | ⟨_, hnew, _, himp⟩
      · exact ⟨d2, by rw [heq]; exact hd2, hd2le⟩
      · refine ⟨_, hnew, ?_⟩
        have := himp d2 hd2
        omega
    · refine ⟨⟨pv ++ [x], isWalk_snoc hpv hx, ?_⟩, ?_⟩
      · rw [redCount_snoc, hpvc]
      · obtain ⟨dx', hdx', hdx'le⟩ := fr4 x hx
        exact ⟨dx', hdx', by simpa using hdx'le⟩
  · intro u c' hc'
    rcases fr1 u with heq | ⟨hu1, hnew, _, _⟩
    · rw [heq] at hc'
      exact h2 u c' hc'
    · rw [hnew] at hc'
      injection hc' with hc'
      refine ⟨pv ++ [u], isWalk_snoc hpv hu1, ?_⟩
      rw [redCount_snoc, hpvc, hc']
  · intro u hu p hp
    rcases Finset.mem_insert.mp hu with rfl | huS
    · exact ⟨c, hdv', hsettle p hp⟩
    · obtain ⟨du, hdu, hd'u, hduc⟩ := hSkeep u huS
      obtain ⟨du2, hdu2, hdu2le⟩ := h3 u huS p hp
      rw [hdu] at hdu2
      injection hdu2 with hdu2
      subst hdu2
      exact ⟨du, hd'u, hdu2le⟩
  · intro u hu x hx
    rcases Finset.mem_insert.mp hu with rfl | huS
    · obtain ⟨dx', hdx', hdx'le⟩ := fr4 x hx
      exact ⟨c, dx', hdv', hdx', hdx'le⟩
    · obtain ⟨du, hdu, hd'u, hduc⟩ := hSkeep u huS
      obtain ⟨dv2, dx2, hdv2, hdx2, hle2⟩ := h4 u huS x hx
      rw [hdu] at hdv2
      injection hdv2 with hdv2
      subst hdv2
      rcases fr1 x with heq | ⟨_, hnew, _, himp⟩
      · exact ⟨du, dx2, hd'u, by rw [heq]; exact hdx2, hle2⟩
      · refine ⟨du, _, hd'u, hnew, ?_⟩
        have := himp dx2 hdx2
        omega
  · intro u hu c' hc'
    have hune : u ≠ v := fun hc => hu (hc ▸ Finset.mem_insert_self _ _)
    have huS : u ∉ S := fun hc => hu (Finset.mem_insert_of_mem hc)
    rcases fr1 u with heq | ⟨hu1, hnew, hmem, _⟩
    · rw [heq] at hc'
      have := h5 u huS c' hc'
      rcases List.mem_cons.mp this with heq2 | hmem2
      · exfalso
        exact hune (congrArg Prod.snd heq2)
      · exact fr2 _ hmem2
    · rw [hnew] at hc'
      injection hc' with hc'
      rw [hc'] at hmem
      exact hmem
  · intro u hu e he
    rcases Finset.mem_insert.mp hu with rfl | huS
    · exact ⟨c, hdv', hbound e he⟩
    · obtain ⟨du, hdu, hd'u, hduc⟩ := hSkeep u huS
      exact ⟨du, hd'u, le_trans hduc (hbound e he)⟩
  · intro hc
    rcases Finset.mem_insert.mp hc with rfl | htS
    · exact hvt rfl
    · exact h7 htS
  · obtain ⟨ds, hds, hdsle⟩ := h8
    rcases fr1 s with heq | ⟨_, hnew, _, himp⟩
    · exact ⟨ds, by rw [heq]; exact hds, hdsle⟩
    · refine ⟨_, hnew, ?_⟩
      have := himp ds hds
      omega

theorem dijkstraLoop_spec {edges : List Edge} {red : Finset Nat} {s t : Nat} :
    ∀ (heap : List (Nat × Nat)) (dist : Nat → Option Nat), ∀ (S : Finset Nat),
    DijkInv edges red s t heap dist S →
    (dijkstraLoop edges red t heap dist = -1 ∧
      ¬ ∃ p, IsWalk (adjList edges) s t p) ∨
    (∃ c : Nat, dijkstraLoop edges red t heap dist = (c : Int) ∧
      (∃ p, IsWalk (adjList edges) s t p ∧ redCount red p = c) ∧
      (∀ p, IsWalk (adjList edges) s t p → c ≤ redCount red p)) := by
  intro heap dist
  induction heap, dist using dijkstraLoop.induct edges red t with
  | case1 dist =>
    intro S hinv
    refine Or.inl ⟨?_, dijk_empty_no_walk hinv⟩
    rw [dijkstraLoop]
  | case2 c rest dist =>
    intro S hinv
    have hcut := dijk_cut hinv
    obtain ⟨h0, h1, h2, h3, h4, h5, h6, h7, h8⟩ := hinv
    have hheadmin := head_min_of_pairwise h0
    refine Or.inr ⟨c, ?_, ?_, ?_⟩
    · rw [dijkstraLoop]
      simp
    · obtain ⟨⟨p, hp, hpc⟩, _⟩ := h1 (c, t) (List.mem_cons_self _ _)
      exact ⟨p, hp, hpc⟩
    · intro p hp
      rcases hcut p t hp with ⟨dz, hdz, hdzle⟩ | ⟨e, he, hele⟩
      · have hmem := h5 t h7 dz hdz
        have := hheadmin (dz, t) hmem
        simp only at this
        omega
      · exact le_trans (hheadmin e he) hele
  | case3 c v rest dist hvt hstale ih =>
    intro S hinv
    obtain ⟨d, hdd, hdlt⟩ : ∃ d, dist v = some d ∧ d < c := by
      rcases hdv : dist v with _ | d
      · rw [hdv] at hstale
        simp at hstale
      · rw [hdv] at hstale
        simp at hstale
        exact ⟨d, rfl, hstale⟩
    have heq : dijkstraLoop edges red t ((c, v) :: rest) dist =
        dijkstraLoop edges red t rest dist := by
      rw [dijkstraLoop]
      simp [hvt, hdd, hdlt]
    rw [heq]
    exact ih S (dijk_stale_preserve hinv hdd hdlt)
  | case4 c v rest dist hvt hnotstale ih =>
    intro S hinv
    have hdvc : dist v = some c := by
      obtain ⟨_, h1, _⟩ := hinv
      obtain ⟨_, ⟨d, hd, hdle⟩⟩ := h1 (c, v) (List.mem_cons_self _ _)
      rw [hd] at hnotstale ⊢
      simp only [decide_eq_true_eq] at hnotstale
      have : d = c := by omega
      rw [this]
    have heq : dijkstraLoop edges red t ((c, v) :: rest) dist =
        dijkstraLoop edges red t
          (fewRelax red c (adjList edges v) rest dist).1
          (fewRelax red c (adjList edges v) rest dist).2 := by
      rw [dijkstraLoop]
      simp only [if_neg hvt, hdvc]
      simp
    rw [heq]
    exact ih (insert v S) (dijk_settle_preserve hinv hvt hdvc)

theorem solve_few_spec (n : Nat) (edges : List Edge) (s t : Nat)
    (red : Finset Nat) :
    (solve_few n edges s t red = -1 ∧
      ¬ ∃ p, IsWalk (adjList edges) s t p) ∨
    (∃ c : Nat, solve_few n edges s t red = (c : Int) ∧
      (∃ p, IsWalk (adjList edges) s t p ∧ redCount red p = c) ∧
      (∀ p, IsWalk (adjList edges) s t p → c ≤ redCount red p)) := by
  unfold solve_few
  refine dijkstraLoop_spec _ _ (∅ : Finset Nat) ?_
  rw [show insertHeap ((if s ∈ red then 1 else 0), s) [] =
    [((if s ∈ red then 1 else 0), s)] from rfl]
  refine ⟨?_, ?_, ?_, ?_, ?_, ?_, ?_, ?_, ?_⟩
  · simp
  · intro e he
    simp only [List.mem_singleton] at he
    subst he
    refine ⟨⟨[s], isWalk_single s, by rw [redCount_single]⟩, ?_⟩
    exact ⟨_, by simp, le_refl _⟩
  · intro u c' hc'
    by_cases hus : u = s
    · subst hus
      simp only [if_pos rfl] at hc'
      injection hc' with hc'
      refine ⟨[u], isWalk_single u, ?_⟩
      rw [redCount_single, hc']
    · simp [hus] at hc'
  · intro u hu
    simp at hu
  · intro u hu
    simp at hu
  · intro u _ c' hc'
    by_cases hus : u = s
    · subst hus
      simp only [if_pos rfl] at hc'
      injection hc' with hc'
      rw [← hc']
      simp
    · simp [hus] at hc'
  · intro u hu
    simp at hu
  · simp
  · exact ⟨_, by simp, le_refl _⟩

/-- C4: `solve_few` returns the minimum over all s-to-t walks of the total
vertex cost (1 per red vertex, counting every vertex on the walk including
`s` and `t`), and -1 when no s-to-t walk exists. -/
theorem few_solver_min_red_cost (n : Nat) (edges : List Edge) (s t : Nat)
    (red : Finset Nat) :
    (solve_few n edges s t red = -1 ∧
      ¬ ∃ p, IsWalk (adjList edges) s t p) ∨
    (∃ c : Nat, solve_few n edges s t red = (c : Int) ∧
      (∃ p, IsWalk (adjList edges) s t p ∧ redCount red p = c) ∧
      (∀ p, IsWalk (adjList edges) s t p → c ≤ redCount red p)) :=
  solve_few_spec n edges s t red

theorem redCount_le_insert {red : Finset Nat} {v : Nat} :
    ∀ (p : List Nat), redCount red p ≤ redCount (insert v red) p := by
  intro p
  induction p with
  | nil => simp [redCount]
  | cons a p ih =>
    simp only [redCount, List.countP_cons]
    simp only [redCount] at ih
    have hstep : (if decide (a ∈ red) = true then 1 else 0) ≤
        (if decide (a ∈ insert v red) = true then 1 else 0) := by
      by_cases ha : a ∈ red
      · simp [ha, Finset.mem_insert_of_mem ha]
      · by_cases hav : a ∈ insert v red <;> simp [ha, hav]
    omega

/-- C8: `solve_few` is monotone in the red set: enlarging the red set by
one vertex cannot decrease the returned minimum, for every fixed edge
list, source and target. -/
theorem few_monotone_in_red (n : Nat) (edges : List Edge) (s t : Nat)
    (red : Finset Nat) (v : Nat) :
    solve_few n edges s t red ≤ solve_few n edges s t (insert v red) := by
  rcases solve_few_spec n edges s t red with ⟨he1, hn1⟩ |
    ⟨c1, he1, ⟨p1, hp1, hc1⟩, hmin1⟩
  · rcases solve_few_spec n edges s t (insert v red) with ⟨he2, _⟩ |
      ⟨c2, he2, _, _⟩
    · rw [he1, he2]
    · rw [he1, he2]
      omega
  · rcases solve_few_spec n edges s t (insert v red) with ⟨_, hn2⟩ |
      ⟨c2, he2, ⟨p2, hp2, hc2⟩, hmin2⟩
    · exact absurd ⟨p1, hp1⟩ hn2
    · rw [he1, he2]
      have h1 : c1 ≤ redCount red p2 := hmin1 p2 hp2
      have h2 : redCount red p2 ≤ redCount (insert v red) p2 :=
        redCount_le_insert p2
      rw [← hc2]
      exact_mod_cast le_trans h1 h2

theorem prefixPath_single {edges : List Edge} {red : Finset Nat}
    {s t : Nat} : PrefixPath edges red s t s [s] := by
  refine ⟨isWalk_single s, ?_⟩
  simp

theorem prefixPath_snoc {edges : List Edge} {red : Finset Nat}
    {s t u x : Nat} {p : List Nat} (hp : PrefixPath edges red s t u p)
    (hx : x ∈ adjList edges u) (hxr : x ∉ red) (hxt : x ≠ t) :
    PrefixPath edges red s t x (p ++ [x]) := by
  obtain ⟨hw, htail⟩ := hp
  have hne : p ≠ [] := by
    intro hc
    rw [hc] at hw
    exact absurd hw.1 (by simp)
  have h1 : 1 ≤ p.length := by
    cases p with
    | nil => exact absurd rfl hne
    | cons a b => simp
  refine ⟨isWalk_snoc hw hx, ?_⟩
  intro y hy
  rw [List.drop_append_of_le_length h1] at hy
  rcases List.mem_append.mp hy with hy2 | hy2
  · exact htail y hy2
  · have : y = x := by simpa using hy2
    subst this
    exact ⟨hxr, hxt⟩

theorem noneScan_none_iff {red : Finset Nat} {t d : Nat} :
    ∀ {ns : List Nat} {q : List (Nat × Nat)} {vis : Finset Nat},
    t ∉ vis → (noneScan red t d ns q vis = none ↔ t ∈ ns) := by
  intro ns
  induction ns with
  | nil =>
    intro q vis _
    simp [noneScan]
  | cons n ns ih =>
    intro q vis ht
    simp only [noneScan]
    by_cases hv : n ∈ vis
    · rw [if_pos hv, ih ht]
      have hnt : n ≠ t := by
        intro hc
        exact ht (hc ▸ hv)
      simp [hnt, Ne.symm hnt]
    · rw [if_neg hv]
      by_cases hnt : n = t
      · subst hnt
        simp
      · rw [if_neg hnt]
        by_cases hr : n ∈ red
        · rw [if_pos hr, ih ht]
          simp [hnt, Ne.symm hnt]
        · rw [if_neg hr]
          have ht' : t ∉ insert n vis := by
            simp only [Finset.mem_insert]
            push_neg
            exact ⟨Ne.symm hnt, ht⟩
          rw [ih ht']
          simp [hnt, Ne.symm hnt]

theorem noneScan_some {red : Finset Nat} {t d : Nat} :
    ∀ {ns : List Nat} {q : List (Nat × Nat)} {vis : Finset Nat}
    {q' : List (Nat × Nat)} {vis' : Finset Nat},
    noneScan red t d ns q vis = some (q', vis') →
    ∃ new, q' = q ++ new ∧
      (∀ e ∈ new, e.2 = d + 1 ∧ e.1 ∈ ns ∧ e.1 ∉ vis ∧ e.1 ∉ red ∧
        e.1 ≠ t ∧ e.1 ∈ vis') ∧
      (∀ v ∈ vis, v ∈ vis') ∧
      (∀ v ∈ vis', v ∈ vis ∨ ∃ e ∈ new, e.1 = v) ∧
      (∀ v ∈ vis', v ∉ vis → (v, d + 1) ∈ new) ∧
      (∀ x ∈ ns, x ∈ vis' ∨ x ∈ red) ∧
      ((q.map Prod.fst).Nodup → (∀ e ∈ q, e.1 ∈ vis) →
        (q'.map Prod.fst).Nodup) := by
  intro ns
  induction ns with
  | nil =>
    intro q vis q' vis' h
    simp only [noneScan, Option.some.injEq, Prod.mk.injEq] at h
    obtain ⟨rfl, rfl⟩ := h
    refine ⟨[], by simp, by simp, fun v hv => hv, fun v hv => Or.inl hv,
      fun v hv hnv => absurd hv hnv, by simp, fun hn _ => hn⟩
  | cons n ns ih =>
    intro q vis q' vis' h
    simp only [noneScan] at h
    by_cases hv : n ∈ vis
    · rw [if_pos hv] at h
      obtain ⟨new, hq', hnew, hmono, hcov, hfresh, hcl, hnd⟩ := ih h
      refine ⟨new, hq', ?_, hmono, hcov, hfresh, ?_, hnd⟩
      · intro e he
        obtain ⟨e1, e2, e3, e4, e5, e6⟩ := hnew e he
        exact ⟨e1, List.mem_cons_of_mem _ e2, e3, e4, e5, e6⟩
      · intro x hx
        rcases List.mem_cons.mp hx with rfl | hx2
        · exact Or.inl (hmono _ hv)
        · exact hcl x hx2
    · rw [if_neg hv] at h
      by_cases hnt : n = t
      · rw [if_pos hnt] at h
        exact absurd h (by simp)
      · rw [if_neg hnt] at h
        by_cases hr : n ∈ red
        · rw [if_pos hr] at h
          obtain ⟨new, hq', hnew, hmono, hcov, hfresh, hcl, hnd⟩ := ih h
          refine ⟨new, hq', ?_, hmono, hcov, hfresh, ?_, hnd⟩
          · intro e he
            obtain ⟨e1, e2, e3, e4, e5, e6⟩ := hnew e he
            exact ⟨e1, List.mem_cons_of_mem _ e2, e3, e4, e5, e6⟩
          · intro x hx
            rcases List.mem_cons.mp hx with rfl | hx2
            · exact Or.inr hr
            · exact hcl x hx2
        · rw [if_neg hr] at h
          obtain ⟨new, hq', hnew, hmono, hcov, hfresh, hcl, hnd⟩ := ih h
          have hmono0 : ∀ v ∈ vis, v ∈ vis' := by
            intro v hv2
            exact hmono _ (Finset.mem_insert_of_mem hv2)
          have hnvis' : n ∈ vis' := hmono _ (Finset.mem_insert_self _ _)
          refine ⟨(n, d + 1) :: new, by simpa using hq', ?_, hmono0, ?_, ?_,
            ?_, ?_⟩
          · intro e he
            rcases List.mem_cons.mp he with rfl | he2
            · exact ⟨rfl, List.mem_cons_self _ _, hv, hr, hnt, hnvis'⟩
            · obtain ⟨e1, e2, e3, e4, e5, e6⟩ := hnew e he2
              have e3' : e.1 ∉ vis := by
                intro hc
                exact e3 (Finset.mem_insert_of_mem hc)
              exact ⟨e1, List.mem_cons_of_mem _ e2, e3', e4, e5, e6⟩
          · intro v hv'
            rcases hcov v hv' with hv2 | ⟨e, he, hev⟩
            · rcases Finset.mem_insert.mp hv2 with rfl | hv3
              · exact Or.inr ⟨(v, d + 1), List.mem_cons_self _ _, rfl⟩
              · exact Or.inl hv3
            · exact Or.inr ⟨e, List.mem_cons_of_mem _ he, hev⟩
          · intro v hv' hnv
            by_cases hvn : v = n
            · subst hvn
              exact List.mem_cons_self _ _
            · have : v ∉ insert n vis := by
                simp only [Finset.mem_insert]
                push_neg
                exact ⟨hvn, hnv⟩
              exact List.mem_cons_of_mem _ (hfresh v hv' this)
          · intro x hx
            rcases List.mem_cons.mp hx with rfl | hx2
            · exact Or.inl hnvis'
            · exact hcl x hx2
          · intro hnq hqv
            refine hnd ?_ ?_
            · rw [List.map_append]
              simp only [List.map_cons, List.map_nil]
              rw [List.nodup_append]
              refine ⟨hnq, by simp, ?_⟩
              intro a ha hb
              have : a = n := by simpa using hb
              subst this
              obtain ⟨e, he, hefst⟩ := List.mem_map.mp ha
              exact hv (hefst ▸ hqv e he)
            · intro e he
              rcases List.mem_append.mp he with he2 | he2
              · exact Finset.mem_insert_of_mem (hqv e he2)
              · have : e = (n, d + 1) := by simpa using he2
                subst this
                exact Finset.mem_insert_self _ _

theorem noneScan_measure {univ : Finset Nat} {red : Finset Nat} {t d : Nat} :
    ∀ {ns : List Nat} {q : List (Nat × Nat)} {vis : Finset Nat}
    {q' : List (Nat × Nat)} {vis' : Finset Nat},
    (∀ n ∈ ns, n ∈ univ) →
    noneScan red t d ns q vis = some (q', vis') →
    nMeasure univ q' vis' ≤ nMeasure univ q vis := by
  intro ns
  induction ns with
  | nil =>
    intro q vis q' vis' _ h
    simp only [noneScan, Option.some.injEq, Prod.mk.injEq] at h
    obtain ⟨rfl, rfl⟩ := h
    exact le_refl _
  | cons n ns ih =>
    intro q vis q' vis' hns h
    simp only [noneScan] at h
    by_cases hv : n ∈ vis
    · rw [if_pos hv] at h
      exact ih (fun m hm => hns m (List.mem_cons_of_mem _ hm)) h
    · rw [if_neg hv] at h
      by_cases hnt : n = t
      · rw [if_pos hnt] at h
        exact absurd h (by simp)
      · rw [if_neg hnt] at h
        by_cases hr : n ∈ red
        · rw [if_pos hr] at h
          exact ih (fun m hm => hns m (List.mem_cons_of_mem _ hm)) h
        · rw [if_neg hr] at h
          refine le_trans (ih (fun m hm => hns m (List.mem_cons_of_mem _ hm)) h) ?_
          have hnu : n ∈ univ := hns n (List.mem_cons_self _ _)
          have hmem : n ∈ univ \ vis := Finset.mem_sdiff.mpr ⟨hnu, hv⟩
          have hcard : (univ \ insert n vis).card + 1 = (univ \ vis).card := by
            have hset : univ \ insert n vis = (univ \ vis).erase n := by
              ext x
              simp only [Finset.mem_sdiff, Finset.mem_insert, Finset.mem_erase]
              tauto
            have hpos : 0 < (univ \ vis).card := Finset.card_pos.mpr ⟨n, hmem⟩
            rw [hset, Finset.card_erase_of_mem hmem]
            omega
          simp only [nMeasure, List.length_append, List.length_singleton]
          omega

theorem pairwise_of_const {l : List (Nat × Nat)} {c : Nat}
    (h : ∀ e ∈ l, e.2 = c) :
    List.Pairwise (fun x y : Nat × Nat => x.2 ≤ y.2) l := by
  induction l with
  | nil => exact List.Pairwise.nil
  | cons a l ih =>
    refine List.Pairwise.cons ?_ (ih fun e he => h e (List.mem_cons_of_mem _ he))
    intro b hb
    rw [h a (List.mem_cons_self _ _), h b (List.mem_cons_of_mem _ hb)]

theorem noneCut {edges : List Edge} {red : Finset Nat} {s t : Nat}
    {q : List (Nat × Nat)} {vis : Finset Nat} {lvl : Nat → Option Nat}
    (hinv : NInv edges red s t q vis lvl) :
    ∀ (p : List Nat) (z : Nat), PrefixPath edges red s t z p →
    (∃ dz, lvl z = some dz ∧ dz + 1 ≤ p.length) ∨
    (∃ e ∈ q, e.2 + 1 < p.length) := by
  obtain ⟨⟨hs, hls, ht⟩, hvl, hopt, hqv, hpw, hbd, hnd, hcl⟩ := hinv
  intro p
  induction p using List.reverseRecOn with
  | nil =>
    intro z hw
    obtain ⟨⟨hh, _, _⟩, _⟩ := hw
    simp at hh
  | append_singleton l a ih =>
    intro z hw
    have haz : a = z := by
      have := hw.1.2.1
      rw [List.getLast?_append_cons] at this
      simpa using this
    subst haz
    by_cases hl : l = []
    · subst hl
      have hsa : s = a := by
        have := hw.1.1
        simpa using this.symm
      subst hsa
      exact Or.inl ⟨0, hls, by simp⟩
    · obtain ⟨u, hu⟩ : ∃ u, l.getLast? = some u := by
        cases l with
        | nil => exact absurd rfl hl
        | cons x xs => exact ⟨_, rfl⟩
      have h1 : 1 ≤ l.length := by
        cases l with
        | nil => exact absurd rfl hl
        | cons x xs => simp
      have hchain := List.chain'_append.mp hw.1.2.2
      have hstep : a ∈ adjList edges u := by
        refine hchain.2.2 u ?_ a ?_ <;> simp [hu]
      have hwl : PrefixPath edges red s t u l := by
        refine ⟨⟨?_, hu, hchain.1⟩, ?_⟩
        · have := hw.1.1
          rwa [List.head?_append_of_ne_nil _ hl] at this
        · intro y hy
          refine hw.2 y ?_
          rw [List.drop_append_of_le_length h1]
          exact List.mem_append.mpr (Or.inl hy)
      have hamem : a ∈ (l ++ [a]).drop 1 := by
        rw [List.drop_append_of_le_length h1]
        exact List.mem_append.mpr (Or.inr (List.mem_singleton.mpr rfl))
      obtain ⟨har, hat⟩ := hw.2 a hamem
      have hlen : (l ++ [a]).length = l.length + 1 := by simp
      rcases ih u hwl with ⟨du, hdu, hdule⟩ | ⟨e, he, hele⟩
      · by_cases hq : ∃ d', (u, d') ∈ q
        · obtain ⟨d', hd'⟩ := hq
          have hd'lvl : lvl u = some d' := (hqv _ hd').2
          rw [hdu] at hd'lvl
          injection hd'lvl with hdd
          refine Or.inr ⟨(u, d'), hd', ?_⟩
          rw [hlen]
          omega
        · have hnuq : ∀ d0, (u, d0) ∉ q := by
            intro d0 hc
            exact hq ⟨d0, hc⟩
          obtain ⟨hvisred, _⟩ := hcl u (hopt u du hdu).1 hnuq a hstep
          rcases hvisred with havis | hared
          · obtain ⟨da, hda⟩ := hvl a havis
            exact Or.inl ⟨da, hda, (hopt a da hda).2.2 _ hw⟩
          · exact absurd hared har
      · refine Or.inr ⟨e, he, ?_⟩
        rw [hlen]
        omega

theorem nInv_step {edges : List Edge} {red : Finset Nat} {s t u d : Nat}
    {q : List (Nat × Nat)} {vis : Finset Nat} {lvl : Nat → Option Nat}
    {q' : List (Nat × Nat)} {vis' : Finset Nat}
    (hinv : NInv edges red s t ((u, d) :: q) vis lvl)
    (h : noneScan red t d (adjList edges u) q vis = some (q', vis')) :
    NInv edges red s t q' vis'
      (fun x => if x ∈ vis' \ vis then some (d + 1) else lvl x) := by
  have hcut := noneCut hinv
  obtain ⟨⟨hs, hls, ht⟩, hvl, hopt, hqv, hpw, hbd, hnd, hcl⟩ := hinv
  obtain ⟨new, hq', hnew, hmono, hcov, hfresh, hclsc, hndk⟩ := noneScan_some h
  have hu : u ∈ vis := (hqv _ (List.mem_cons_self _ _)).1
  have hul : lvl u = some d := (hqv _ (List.mem_cons_self _ _)).2
  have htns : t ∉ adjList edges u := by
    intro hc
    have h2 := (@noneScan_none_iff red t d (adjList edges u) q vis ht).mpr hc
    rw [h] at h2
    simp at h2
  have hheadmin : ∀ e ∈ (u, d) :: q, d ≤ e.2 := by
    intro e he
    rcases List.mem_cons.mp he with rfl | he2
    · exact le_refl _
    · exact (List.pairwise_cons.mp hpw).1 e he2
  have hbd1 : ∀ e ∈ q, e.2 ≤ d + 1 := by
    intro e he
    exact hbd e (List.mem_cons_of_mem _ he) (u, d) rfl
  have hqvis : ∀ e ∈ q, e.1 ∈ vis :=
    fun e he => (hqv e (List.mem_cons_of_mem _ he)).1
  have hfreshp : ∀ v, v ∈ vis' → v ∉ vis →
      v ∈ adjList edges u ∧ v ∉ red ∧ v ≠ t := by
    intro v hv' hnv
    obtain ⟨_, e2, _, e4, e5, _⟩ := hnew _ (hfresh v hv' hnv)
    exact ⟨e2, e4, e5⟩
  have hlvl'old : ∀ x, x ∈ vis →
      (if x ∈ vis' \ vis then some (d + 1) else lvl x) = lvl x := by
    intro x hx
    rw [if_neg]
    simp only [Finset.mem_sdiff]
    push_neg
    intro _
    exact hx
  have hlvl'fresh : ∀ x, x ∈ vis' → x ∉ vis →
      (if x ∈ vis' \ vis then some (d + 1) else lvl x) = some (d + 1) := by
    intro x h1 h2
    rw [if_pos (Finset.mem_sdiff.mpr ⟨h1, h2⟩)]
  refine ⟨⟨hmono _ hs, ?_, ?_⟩, ?_, ?_, ?_, ?_, ?_, ?_, ?_⟩
  · show (if s ∈ vis' \ vis then some (d + 1) else lvl s) = some 0
    rw [hlvl'old s hs]
    exact hls
  · intro hc
    rcases hcov t hc with hc2 | ⟨e, he, het⟩
    · exact ht hc2
    · exact (hnew e he).2.2.2.2.1 het
  · intro v hv'
    by_cases hvv : v ∈ vis
    · obtain ⟨dv, hdv⟩ := hvl v hvv
      refine ⟨dv, ?_⟩
      show (if v ∈ vis' \ vis then some (d + 1) else lvl v) = some dv
      rw [hlvl'old v hvv]
      exact hdv
    · exact ⟨d + 1, hlvl'fresh v hv' hvv⟩
  · intro v dv hdv0
    have hdv : (if v ∈ vis' \ vis then some (d + 1) else lvl v) = some dv := hdv0
    by_cases hvv : v ∈ vis
    · rw [hlvl'old v hvv] at hdv
      obtain ⟨_, hreal, hoptv⟩ := hopt v dv hdv
      exact ⟨hmono _ hvv, hreal, hoptv⟩
    · by_cases hv' : v ∈ vis'
      · rw [hlvl'fresh v hv' hvv] at hdv
        injection hdv with hdv
        subst hdv
        obtain ⟨hadj, hred, hnt⟩ := hfreshp v hv' hvv
        obtain ⟨pu, hpu, hpulen⟩ := (hopt u d hul).2.1
        refine ⟨hv', ⟨pu ++ [v], prefixPath_snoc hpu hadj hred hnt,
          by simp [hpulen]⟩, ?_⟩
        intro p hp
        rcases hcut p v hp with ⟨dz, hdz, _⟩ | ⟨e, he, hele⟩
        · exact absurd (hopt v dz hdz).1 hvv
        · have := hheadmin e he
          omega
      · have hnot : v ∉ vis' \ vis := by
          simp only [Finset.mem_sdiff]
          push_neg
          intro hc
          exact absurd hc hv'
        rw [if_neg hnot] at hdv
        exact absurd (hopt v dv hdv).1 hvv
  · intro e he
    rw [hq'] at he
    rcases List.mem_append.mp he with he2 | he2
    · have h4 := hqv e (List.mem_cons_of_mem _ he2)
      refine ⟨hmono _ h4.1, ?_⟩
      show (if e.1 ∈ vis' \ vis then some (d + 1) else lvl e.1) = some e.2
      rw [hlvl'old _ h4.1]
      exact h4.2
    · obtain ⟨e1, _, e3, _, _, e6⟩ := hnew e he2
      refine ⟨e6, ?_⟩
      show (if e.1 ∈ vis' \ vis then some (d + 1) else lvl e.1) = some e.2
      rw [hlvl'fresh _ e6 e3, e1]
  · rw [hq']
    refine List.pairwise_append.mpr ⟨(List.pairwise_cons.mp hpw).2,
      pairwise_of_const (fun e he => (hnew e he).1), ?_⟩
    intro a ha b hb
    rw [(hnew b hb).1]
    have := hbd1 a ha
    omega
  · rw [hq']
    cases q with
    | nil =>
      simp only [List.nil_append]
      intro e he h0 hh0
      have hh0m : h0 ∈ new := by
        cases new with
        | nil => simp at hh0
        | cons a l =>
          have : a = h0 := by simpa using hh0
          rw [← this]
          exact List.mem_cons_self _ _
      rw [(hnew e he).1, (hnew h0 hh0m).1]
      omega
    | cons r0 rq =>
      intro e he h0 hh0
      have hh0' : h0 = r0 := by
        have : r0 = h0 := by simpa using hh0
        exact this.symm
      subst hh0'
      have hr0 : d ≤ h0.2 :=
        hheadmin h0 (List.mem_cons_of_mem _ (List.mem_cons_self _ _))
      rcases List.mem_append.mp he with he2 | he2
      · have := hbd1 e he2
        omega
      · rw [(hnew e he2).1]
        omega
  · have hnd0 : (q.map Prod.fst).Nodup := by
      rw [List.map_cons] at hnd
      exact (List.nodup_cons.mp hnd).2
    exact hndk hnd0 hqvis
  · intro v hv' hnq x hx
    by_cases hvv : v ∈ vis
    · by_cases hvu : v = u
      · subst hvu
        constructor
        · rcases hclsc x hx with h1 | h1
          · exact Or.inl h1
          · exact Or.inr h1
        · intro hc
          rw [hc] at hx
          exact htns hx
      · have hnq0 : ∀ d0, (v, d0) ∉ (u, d) :: q := by
          intro d0 hc
          rcases List.mem_cons.mp hc with hc2 | hc2
          · exact hvu (by simpa using congrArg Prod.fst hc2)
          · exact hnq d0 (by rw [hq']; exact List.mem_append.mpr (Or.inl hc2))
        obtain ⟨h1, h2⟩ := hcl v hvv hnq0 x hx
        refine ⟨?_, h2⟩
        rcases h1 with h1 | h1
        · exact Or.inl (hmono _ h1)
        · exact Or.inr h1
    · have hvq' : (v, d + 1) ∈ q' := by
        rw [hq']
        exact List.mem_append.mpr (Or.inr (hfresh v hv' hvv))
      exact absurd hvq' (hnq (d + 1))

theorem cleanPath_to_prefix {edges : List Edge} {red : Finset Nat} {s t : Nat}
    {mid : List Nat} (hmid : ∀ x ∈ mid, x ∉ red ∧ x ≠ t)
    (hchain : (s :: mid ++ [t]).Chain' (fun a b => b ∈ adjList edges a)) :
    ∃ u', PrefixPath edges red s t u' (s :: mid) ∧ t ∈ adjList edges u' := by
  have hne : (s :: mid) ≠ [] := by simp
  obtain ⟨u', hu'⟩ : ∃ u', (s :: mid).getLast? = some u' :=
    ⟨(s :: mid).getLast hne, List.getLast?_eq_getLast _ hne⟩
  have hchain2 : ((s :: mid) ++ [t]).Chain' (fun a b => b ∈ adjList edges a) := by
    rw [List.cons_append]
    exact hchain
  have hsplit := List.chain'_append.mp hchain2
  have hlink : t ∈ adjList edges u' := hsplit.2.2 u' hu' t rfl
  refine ⟨u', ⟨⟨rfl, hu', hsplit.1⟩, ?_⟩, hlink⟩
  simpa using hmid

theorem none_empty_no_clean {edges : List Edge} {red : Finset Nat} {s t : Nat}
    {vis : Finset Nat} {lvl : Nat → Option Nat}
    (hinv : NInv edges red s t [] vis lvl) :
    ¬ ∃ p, CleanPath edges red s t p := by
  have hcut := noneCut hinv
  obtain ⟨⟨hs, hls, ht⟩, hvl, hopt, hqv, hpw, hbd, hnd, hcl⟩ := hinv
  rintro ⟨p, mid, hp, hmid, hchain⟩
  rw [hp] at hchain
  obtain ⟨u', hpq, hlink⟩ := cleanPath_to_prefix hmid hchain
  rcases hcut (s :: mid) u' hpq with ⟨du', hdu', _⟩ | ⟨e, he, _⟩
  · have hu'vis : u' ∈ vis := (hopt u' du' hdu').1
    exact (hcl u' hu'vis (fun d0 => List.not_mem_nil _) t hlink).2 rfl
  · exact absurd he (List.not_mem_nil _)

theorem none_found_spec {edges : List Edge} {red : Finset Nat} {s t u d : Nat}
    {q : List (Nat × Nat)} {vis : Finset Nat} {lvl : Nat → Option Nat}
    (hinv : NInv edges red s t ((u, d) :: q) vis lvl)
    (h : noneScan red t d (adjList edges u) q vis = none) :
    (∃ p, CleanPath edges red s t p ∧ p.length = (d + 1) + 1) ∧
    (∀ p, CleanPath edges red s t p → (d + 1) + 1 ≤ p.length) := by
  have hcut := noneCut hinv
  obtain ⟨⟨hs, hls, ht⟩, hvl, hopt, hqv, hpw, hbd, hnd, hcl⟩ := hinv
  have hul : lvl u = some d := (hqv _ (List.mem_cons_self _ _)).2
  have htadj : t ∈ adjList edges u :=
    (@noneScan_none_iff red t d (adjList edges u) q vis ht).mp h
  have hheadmin : ∀ e ∈ (u, d) :: q, d ≤ e.2 := by
    intro e he
    rcases List.mem_cons.mp he with rfl | he2
    · exact le_refl _
    · exact (List.pairwise_cons.mp hpw).1 e he2
  constructor
  · obtain ⟨pu, hpu, hlen⟩ := (hopt u d hul).2.1
    obtain ⟨⟨hh, hl, hc⟩, htail⟩ := hpu
    match pu, hh with
    | a :: rest, hh =>
      have has : a = s := by simpa using hh
      have hwalk := isWalk_snoc (⟨hh, hl, hc⟩ :
        IsWalk (adjList edges) s u (a :: rest)) htadj
      refine ⟨(a :: rest) ++ [t], ⟨rest, by rw [has], ?_, hwalk.2.2⟩, ?_⟩
      · intro x hx
        exact htail x (by simpa using hx)
      · simp only [List.length_append, List.length_cons,
          List.length_nil] at hlen ⊢
        omega
  · rintro p ⟨mid, hp, hmid, hchain⟩
    rw [hp] at hchain
    obtain ⟨u', hpq, hlink⟩ := cleanPath_to_prefix hmid hchain
    have hplen : p.length = mid.length + 2 := by
      rw [hp]
      simp
    rcases hcut (s :: mid) u' hpq with ⟨du', hdu', hle⟩ | ⟨e, he, hlt⟩
    · by_cases hq : ∃ d', (u', d') ∈ (u, d) :: q
      · obtain ⟨d', hd'⟩ := hq
        have hlv : lvl u' = some d' := (hqv _ hd').2
        rw [hdu'] at hlv
        injection hlv with hdd
        have hdmin : d ≤ d' := hheadmin _ hd'
        simp only [List.length_cons] at hle
        omega
      · have hnuq : ∀ d0, (u', d0) ∉ (u, d) :: q := by
          intro d0 hc
          exact hq ⟨d0, hc⟩
        have hu'vis : u' ∈ vis := (hopt u' du' hdu').1
        exact absurd rfl (hcl u' hu'vis hnuq t hlink).2
    · have hdmin : d ≤ e.2 := hheadmin _ he
      simp only [List.length_cons] at hlt
      omega

theorem noneLoop_spec {edges : List Edge} {red : Finset Nat} {s t : Nat} :
    ∀ (f : Nat) (q : List (Nat × Nat)) (vis : Finset Nat)
    (lvl : Nat → Option Nat),
    nMeasure (endpoints edges).toFinset q vis < f →
    NInv edges red s t q vis lvl →
    (noneLoop (adjList edges) red t f q vis = -1 ∧
      ¬∃ p, CleanPath edges red s t p) ∨
    (∃ L : Nat, noneLoop (adjList edges) red t f q vis = (L : Int) ∧
      (∃ p, CleanPath edges red s t p ∧ p.length = L + 1) ∧
      (∀ p, CleanPath edges red s t p → L + 1 ≤ p.length)) := by
  intro f
  induction f with
  | zero =>
    intro q vis lvl hm _
    omega
  | succ f ih =>
    intro q vis lvl hm hinv
    match q with
    | [] =>
      exact Or.inl ⟨by simp [noneLoop], none_empty_no_clean hinv⟩
    | (u, d) :: q =>
      rcases hscan : noneScan red t d (adjList edges u) q vis
        with _ | ⟨q2, vis2⟩
      · obtain ⟨hex, hmin⟩ := none_found_spec hinv hscan
        refine Or.inr ⟨d + 1, ?_, hex, hmin⟩
        simp only [noneLoop, hscan]
        push_cast
        ring
      · have hmeas : nMeasure (endpoints edges).toFinset q2 vis2 ≤
            nMeasure (endpoints edges).toFinset q vis := by
          refine noneScan_measure ?_ hscan
          intro m hm2
          exact List.mem_toFinset.mpr (adjList_subset_endpoints hm2)
        have hm2 : nMeasure (endpoints edges).toFinset q2 vis2 < f := by
          have hstep : nMeasure (endpoints edges).toFinset ((u, d) :: q) vis =
              nMeasure (endpoints edges).toFinset q vis + 1 := by
            simp [nMeasure]
            omega
          omega
        have hinv2 := nInv_step hinv hscan
        have hres := ih q2 vis2 _ hm2 hinv2
        simpa only [noneLoop, hscan] using hres

theorem cleanPath_nonePath {edges : List Edge} {red : Finset Nat}
    {s t : Nat} {p : List Nat} (h : CleanPath edges red s t p) :
    NonePath edges red s t p := by
  obtain ⟨mid, hp, hmid, hchain⟩ := h
  subst hp
  refine ⟨⟨rfl, ?_, hchain⟩, ?_⟩
  · exact List.getLast?_concat _
  · intro x hx
    simp only [List.cons_append, List.drop_one, List.tail_cons,
      List.dropLast_concat] at hx
    exact (hmid x hx).1

theorem exists_first_split {a : Nat} : ∀ {l : List Nat}, a ∈ l →
    ∃ l1 l2, l = l1 ++ a :: l2 ∧ a ∉ l1 := by
  intro l
  induction l with
  | nil =>
    intro h
    simp at h
  | cons b l ih =>
    intro h
    by_cases hba : b = a
    · subst hba
      exact ⟨[], l, rfl, by simp⟩
    · rcases List.mem_cons.mp h with hab | h2
      · exact absurd hab.symm hba
      · obtain ⟨l1, l2, hl, ha⟩ := ih h2
        refine ⟨b :: l1, l2, by rw [hl]; rfl, ?_⟩
        simp only [List.mem_cons]
        push_neg
        exact ⟨fun hc => hba hc.symm, ha⟩

theorem nonePath_clean {edges : List Edge} {red : Finset Nat} {s t : Nat}
    (hst : s ≠ t) {w : List Nat} (h : NonePath edges red s t w) :
    ∃ p, CleanPath edges red s t p ∧ p.length ≤ w.length := by
  obtain ⟨⟨hh, hl, hchain⟩, hint⟩ := h
  match w, hh with
  | a :: rest, hh =>
    have has : a = s := by simpa using hh
    have htm : t ∈ a :: rest := by
      have := List.mem_getLast?_eq_getLast hl
      obtain ⟨hne, hgl⟩ := this
      exact hgl ▸ List.getLast_mem hne
    have htr : t ∈ rest := by
      rcases List.mem_cons.mp htm with hts | h2
      · exact absurd (has ▸ hts.symm) hst
      · exact h2
    obtain ⟨mid, tail2, hrest, htmid⟩ := exists_first_split htr
    have hsplit2 : a :: rest = (a :: mid) ++ (t :: tail2) := by
      rw [hrest]
      rfl
    have hchain2 : ((a :: mid) ++ (t :: tail2)).Chain'
        (fun x y => y ∈ adjList edges x) := by
      rw [← hsplit2]
      exact hchain
    have hparts := List.chain'_append.mp hchain2
    have hcleanchain : ((a :: mid) ++ [t]).Chain'
        (fun x y => y ∈ adjList edges x) := by
      refine List.chain'_append.mpr ⟨hparts.1, by simp, ?_⟩
      intro x hx y hy
      have hyt : t = y := by simpa using hy
      exact hyt ▸ hparts.2.2 x hx t rfl
    have hmidprops : ∀ x ∈ mid, x ∉ red ∧ x ≠ t := by
      intro x hx
      refine ⟨?_, fun hc => htmid (hc ▸ hx)⟩
      refine hint x ?_
      have hd1 : (a :: rest).drop 1 = rest := by simp
      rw [hd1, hrest, List.dropLast_append_of_ne_nil _ (by simp)]
      exact List.mem_append.mpr (Or.inl hx)
    refine ⟨(a :: mid) ++ [t], ⟨mid, by rw [has], hmidprops, ?_⟩, ?_⟩
    · have : s :: mid ++ [t] = (a :: mid) ++ [t] := by rw [has]
      rw [← this] at hcleanchain
      rw [← this]
      exact hcleanchain
    · rw [hsplit2]
      simp only [List.length_append, List.length_cons, List.length_nil]
      omega

theorem nInv_init {edges : List Edge} {red : Finset Nat} {s t : Nat}
    (hst : s ≠ t) :
    NInv edges red s t [(s, 0)] {s}
      (fun x => if x = s then some 0 else none) := by
  refine ⟨⟨Finset.mem_singleton_self s, by simp, ?_⟩, ?_, ?_, ?_, ?_, ?_, ?_, ?_⟩
  · simp only [Finset.mem_singleton]
    exact fun hc => hst hc.symm
  · intro v hv
    have hvs : v = s := Finset.mem_singleton.mp hv
    subst hvs
    exact ⟨0, by simp⟩
  · intro v dv hdv
    have hdv2 : (if v = s then some 0 else none : Option Nat) = some dv := hdv
    by_cases hvs : v = s
    · subst hvs
      rw [if_pos rfl] at hdv2
      injection hdv2 with hdd
      subst hdd
      refine ⟨Finset.mem_singleton_self v, ⟨[v], prefixPath_single, by simp⟩, ?_⟩
      intro p hp
      obtain ⟨⟨hh, _, _⟩, _⟩ := hp
      cases p with
      | nil => simp at hh
      | cons a l => simp
    · rw [if_neg hvs] at hdv2
      simp at hdv2
  · intro e he
    have he' : e = (s, 0) := by simpa using he
    subst he'
    exact ⟨Finset.mem_singleton_self s, by simp⟩
  · simp
  · intro e he h0 hh0
    have he' : e = (s, 0) := by simpa using he
    subst he'
    simp
  · simp
  · intro v hv hnq x hx
    have hvs : v = s := Finset.mem_singleton.mp hv
    subst hvs
    exact absurd (List.mem_cons_self _ _) (hnq 0)

theorem none_fuel {edges : List Edge} {s : Nat} :
    nMeasure (endpoints edges).toFinset [(s, 0)] {s} < bfsFuel edges := by
  have hcard : ((endpoints edges).toFinset \ {s}).card ≤
      (endpoints edges).length := by
    refine le_trans (Finset.card_le_card (Finset.sdiff_subset)) ?_
    exact List.toFinset_card_le _
  simp only [nMeasure, List.length_cons, List.length_nil, bfsFuel]
  omega

/-- C5: `solve_none` returns 0 when `s = t`; otherwise it returns the hop
length of a shortest s-t walk all of whose internal vertices (the vertices
strictly between the first and last position) are black — `s` and `t`
themselves may be red — and it returns -1 exactly when no such walk
exists. -/
theorem none_solver_shortest_valid_path (n : Nat) (edges : List Edge)
    (s t : Nat) (red : Finset Nat) :
    (s = t → solve_none n edges s t red = 0) ∧
    (s ≠ t →
      (solve_none n edges s t red = -1 ∧ ¬∃ p, NonePath edges red s t p) ∨
      (∃ L : Nat, solve_none n edges s t red = (L : Int) ∧
        (∃ p, NonePath edges red s t p ∧ p.length = L + 1) ∧
        (∀ p, NonePath edges red s t p → L + 1 ≤ p.length))) := by
  constructor
  · intro h
    simp [solve_none, h]
  · intro hst
    have hval : solve_none n edges s t red =
        noneLoop (adjList edges) red t (bfsFuel edges) [(s, 0)] {s} := by
      simp [solve_none, hst]
    rcases noneLoop_spec (bfsFuel edges) [(s, 0)] {s} _ none_fuel (nInv_init hst)
      with ⟨hres, hnoclean⟩ | ⟨L, hres, ⟨p, hp, hplen⟩, hmin⟩
    · refine Or.inl ⟨hval.trans hres, ?_⟩
      rintro ⟨q, hq⟩
      obtain ⟨p, hp, _⟩ := nonePath_clean hst hq
      exact hnoclean ⟨p, hp⟩
    · refine Or.inr ⟨L, hval.trans hres, ⟨p, cleanPath_nonePath hp, hplen⟩, ?_⟩
      intro q hq
      obtain ⟨p', hp', hle⟩ := nonePath_clean hst hq
      exact le_trans (hmin p' hp') hle

theorem none_solver_shortest_valid_path_witness :
    (0 : Nat) ≠ 2 ∧
    solve_none 3 [Edge.undir 0 1, Edge.undir 1 2] 0 2 {1} = -1 ∧
    ¬∃ p, NonePath [Edge.undir 0 1, Edge.undir 1 2] ({1} : Finset Nat) 0 2 p := by
  have h := (none_solver_shortest_valid_path 3 [Edge.undir 0 1, Edge.undir 1 2]
    0 2 {1}).2 (by decide)
  have hv : solve_none 3 [Edge.undir 0 1, Edge.undir 1 2] 0 2 {1} = -1 := by
    decide
  refine ⟨by decide, hv, ?_⟩
  rcases h with ⟨_, h2⟩ | ⟨L, hL, _, _⟩
  · exact h2
  · exfalso
    rw [hv] at hL
    omega

theorem absent_no_walk {edges : List Edge} {s t : Nat} (hst : s ≠ t)
    (habs : s ∉ endpoints edges ∨ t ∉ endpoints edges) :
    ¬∃ p, IsWalk (adjList edges) s t p := by
  rintro ⟨p, hw⟩
  rcases habs with hs | ht
  · obtain ⟨hh, hl, hc⟩ := hw
    match p, hh, hl, hc with
    | a :: rest, hh, hl, hc =>
      have has : a = s := by simpa using hh
      cases rest with
      | nil =>
        have hat : a = t := by simpa using hl
        exact hst (has.symm.trans hat)
      | cons b rest2 =>
        have hstep : b ∈ adjList edges a := (List.chain'_cons.mp hc).1
        have hne : adjList edges a ≠ [] := by
          intro hc2
          rw [hc2] at hstep
          simp at hstep
        exact hs (has ▸ source_mem_endpoints hne)
  · have htp : t ∈ p := by
      obtain ⟨_, hl, _⟩ := hw
      obtain ⟨hne, hgl⟩ := List.mem_getLast?_eq_getLast hl
      exact hgl ▸ List.getLast_mem hne
    rcases isWalk_mem_vertices hw t htp with hts | ⟨u, hu⟩
    · exact hst hts.symm
    · exact ht (adjList_subset_endpoints hu)

theorem someLoop_values {edges : List Edge} {s t : Nat} :
    ∀ (l : List Nat),
    someLoop edges s t l = "true" ∨ someLoop edges s t l = "false" := by
  intro l
  induction l with
  | nil => exact Or.inr rfl
  | cons r rs ih =>
    simp only [someLoop]
    by_cases h1 : bfs_can_reach s r edges
    · rw [if_pos h1]
      by_cases h2 : bfs_can_reach r t edges
      · rw [if_pos h2]
        exact Or.inl rfl
      · rw [if_neg h2]
        exact ih
    · rw [if_neg h1]
      exact ih

theorem altScan_ne_none {red : Finset Nat} {t : Nat} {c : Bool} :
    ∀ {ns : List Nat} {q : List (Nat × Bool)} {vis : Finset Nat},
    t ∉ ns → altScan red t c ns q vis ≠ none := by
  intro ns
  induction ns with
  | nil =>
    intro q vis _
    simp [altScan]
  | cons n ns ih =>
    intro q vis ht
    have hnt : n ≠ t := fun hc => ht (hc ▸ List.mem_cons_self _ _)
    have ht2 : t ∉ ns := fun hc => ht (List.mem_cons_of_mem _ hc)
    simp only [altScan]
    by_cases hv : n ∈ vis
    · rw [if_pos hv]
      exact ih ht2
    · rw [if_neg hv]
      by_cases hc : c = true
    
      · rw [if_pos hc]
        by_cases hr : n ∈ red
        · rw [if_pos hr]
          exact ih ht2
        · rw [if_neg hr, if_neg hnt]
          exact ih ht2
      · rw [if_neg hc]
        by_cases hr : n ∈ red
        · rw [if_pos hr, if_neg hnt]
          exact ih ht2
        · rw [if_neg hr]
          exact ih ht2

theorem altLoop_no_target {edges : List Edge} {red : Finset Nat} {t : Nat}
    (ht : t ∉ endpoints edges) :
    ∀ (f : Nat) (q : List (Nat × Bool)) (vis : Finset Nat),
    altLoop (adjList edges) red t f q vis = false := by
  intro f
  induction f with
  | zero =>
    intro q vis
    simp [altLoop]
  | succ f ih =>
    intro q vis
    match q with
    | [] => simp [altLoop]
    | (u, c) :: q =>
      have htns : t ∉ adjList edges u :=
        fun hc => ht (adjList_subset_endpoints hc)
      rcases hscan : altScan red t c (adjList edges u) q vis with _ | p
      · exact absurd hscan (altScan_ne_none htns)
      · simp only [altLoop, hscan]
        exact ih p.1 p.2

theorem alternate_absent_source {n : Nat} {edges : List Edge} {s t : Nat}
    {red : Finset Nat} (hadj : adjList edges s = []) :
    alternate_solution n edges s t red = false := by
  unfold alternate_solution
  by_cases hred : red = ∅
  · rw [if_pos hred]
  · rw [if_neg hred]
    by_cases hst : s = t
    · rw [if_pos hst]
    · rw [if_neg hst]
      have h2 : ∀ f vis2, altLoop (adjList edges) red t f [] vis2 = false := by
        intro f vis2
        cases f <;> simp [altLoop]
      have hf : bfsFuel edges = (1 + 2 * (endpoints edges).length) + 1 := by
        simp only [bfsFuel]
        omega
      rw [hf]
      simp only [altLoop, hadj, altScan]
      exact h2 _ _

/-- C6 counterexample: with an empty edge list the vertex 0 is absent from
the edge-derived vertex set, yet for s = t = 0 the None solver answers 0,
the Few solver answers the start cost 1, and the Some solver answers
"true" — not the unreachable values -1/false the sentence asserts for the
s = t case as well. -/
theorem absent_vertex_unreachable_counterexample :
    (0 : Nat) ∉ endpoints ([] : List Edge) ∧
    solve_none 1 [] 0 0 ({0} : Finset Nat) = 0 ∧
    solve_few 1 [] 0 0 ({0} : Finset Nat) = 1 ∧
    solve_some 1 [] 0 0 ({0} : Finset Nat) = "true" := by
  refine ⟨by decide, by decide, ?_, ?_⟩
  · show solve_few 1 [] 0 0 {0} = 1
    unfold solve_few
    rw [show insertHeap ((if (0 : Nat) ∈ ({0} : Finset Nat) then 1 else 0), 0)
      [] = [((if (0 : Nat) ∈ ({0} : Finset Nat) then 1 else 0), 0)] from rfl]
    rw [dijkstraLoop]
    simp
  · rw [solve_some_iff]
    exact ⟨0, Finset.mem_singleton_self 0, Relation.ReflTransGen.refl,
      Relation.ReflTransGen.refl⟩

/-- C6 (amended): for instances with distinct query endpoints, if `s` or
`t` is absent from the edge-derived vertex set then every solver returns
its unreachable value — -1 for None and Few, "false"/false for Some and
Alternate — and the Many solver returns -1 unless the instance falls
outside both of its solved classes, in which case it returns its NP-HARD
sentinel. (When `s = t` the solvers instead answer the trivial-walk
values, as the counterexample records.) -/
theorem absent_vertex_unreachable_amended (n E_count : Nat)
    (edges : List Edge) (s t : Nat) (red : Finset Nat)
    (red_list : List Nat) (hst : s ≠ t)
    (habs : s ∉ endpoints edges ∨ t ∉ endpoints edges) :
    solve_none n edges s t red = -1 ∧
    solve_few n edges s t red = -1 ∧
    solve_some n edges s t red = "false" ∧
    alternate_solution n edges s t red = false ∧
    (solve_many_entry n E_count s t red_list edges = ManyResult.val (-1) ∨
     solve_many_entry n E_count s t red_list edges = ManyResult.npHard) := by
  have hnowalk := absent_no_walk hst habs
  refine ⟨?_, ?_, ?_, ?_, ?_⟩
  · have hval : solve_none n edges s t red =
        noneLoop (adjList edges) red t (bfsFuel edges) [(s, 0)] {s} := by
      simp [solve_none, hst]
    rcases noneLoop_spec (bfsFuel edges) [(s, 0)] {s} _ none_fuel (nInv_init hst)
      with ⟨hres, _⟩ | ⟨L, hres, ⟨p, hp, _⟩, _⟩
    · exact hval.trans hres
    · exact absurd ⟨p, (cleanPath_nonePath hp).1⟩ hnowalk
  · rcases solve_few_spec n edges s t red with ⟨hres, _⟩ | ⟨c, _, ⟨p, hp, _⟩, _⟩
    · exact hres
    · exact absurd ⟨p, hp⟩ hnowalk
  · have hor : solve_some n edges s t red = "true" ∨
        solve_some n edges s t red = "false" := by
      unfold solve_some
      exact someLoop_values _
    rcases hor with htr | hfa
    · exfalso
      obtain ⟨r, _, ha, hb⟩ := solve_some_iff.mp htr
      have hreach : ReachesVia (adjList edges) s t := ha.trans hb
      rcases habs with hside | hside
      · rcases Relation.ReflTransGen.cases_head hreach with heq | ⟨x, hx, _⟩
        · exact hst heq
        · have hx' : x ∈ adjList edges s := hx
          have hne : adjList edges s ≠ [] := by
            intro hc
            rw [hc] at hx'
            simp at hx'
          exact hside (source_mem_endpoints hne)
      · rcases Relation.ReflTransGen.cases_tail hreach with heq | ⟨u, _, hu⟩
        · exact hst heq.symm
        · have hu' : t ∈ adjList edges u := hu
          exact hside (adjList_subset_endpoints hu')
    · exact hfa
  · rcases habs with hside | hside
    · have hadj : adjList edges s = [] := by
        by_contra hc
        exact hside (source_mem_endpoints hc)
      exact alternate_absent_source hadj
    · unfold alternate_solution
      by_cases hred : red = ∅
      · rw [if_pos hred]
      · rw [if_neg hred, if_neg hst]
        exact altLoop_no_target hside _ _ _
  · have habs' : s ∉ nodesList edges ∨ t ∉ nodesList edges := by
      rcases habs with h | h
      · exact Or.inl (fun hc => h (List.mem_dedup.mp hc))
      · exact Or.inr (fun hc => h (List.mem_dedup.mp hc))
    have hdag : solve_many_dag edges s t red_list.toFinset
        (get_topological_order_and_check_dag edges).1 = -1 := by
      unfold solve_many_dag
      rcases habs' with h | h
      · rw [if_neg h]
      · by_cases hs2 : s ∈ nodesList edges
        · rw [if_pos hs2, if_neg h]
        · rw [if_neg hs2]
    have htree : solve_many_undirected_acyclic edges s t red_list.toFinset
        = -1 := by
      unfold solve_many_undirected_acyclic
      rw [if_pos habs']
    simp only [solve_many_entry]
    split_ifs
    · exact Or.inl (by rw [hdag])
    · exact Or.inl (by rw [htree])
    · exact Or.inr rfl

theorem absent_vertex_unreachable_amended_witness :
    ((0 : Nat) ≠ 1 ∧ ((0 : Nat) ∉ endpoints ([] : List Edge) ∨
      (1 : Nat) ∉ endpoints ([] : List Edge))) ∧
    solve_none 1 [] 0 1 ({0} : Finset Nat) = -1 ∧
    solve_few 1 [] 0 1 ({0} : Finset Nat) = -1 ∧
    solve_some 1 [] 0 1 ({0} : Finset Nat) = "false" ∧
    alternate_solution 1 [] 0 1 ({0} : Finset Nat) = false ∧
    (solve_many_entry 1 0 0 1 [0] [] = ManyResult.val (-1) ∨
     solve_many_entry 1 0 0 1 [0] [] = ManyResult.npHard) := by
  refine ⟨⟨by decide, Or.inl (by decide)⟩, ?_⟩
  exact absent_vertex_unreachable_amended 1 0 [] 0 1 {0} [0] (by decide)
    (Or.inl (by decide))
